import Mathlib

/-! Verification of the ReWOO step-execution engine (`src/ReWOO/graph.py`).

Strings are embedded as `List Char`.  Python's `re` character classes are
modelled over the characters that actually occur in plans (ASCII); the
whitespace class `\s` additionally includes the non-ASCII code points that
Python's `re` treats as whitespace.
-/

/-- Python strings, embedded as lists of characters. -/
abbrev Str := List Char

/-- Python `\s` (whitespace class of `re` on `str`). -/
def isWs (ch : Char) : Bool :=
  let n := ch.toNat
  n == 32 || n == 9 || n == 10 || n == 13 || n == 11 || n == 12 ||
  (28 ≤ n && n ≤ 31) || n == 133 || n == 160 || n == 5760 ||
  (8192 ≤ n && n ≤ 8202) || n == 8232 || n == 8233 || n == 8239 ||
  n == 8287 || n == 12288

/-- Python `\w` (word class: `[a-zA-Z0-9_]`; capability names in this
codebase are ASCII, so the non-ASCII word characters never occur). -/
def isWordChar (ch : Char) : Bool :=
  let n := ch.toNat
  (48 ≤ n && n ≤ 57) || (65 ≤ n && n ≤ 90) || (97 ≤ n && n ≤ 122) || n == 95

/-- Python `\d` (decimal digit class, `[0-9]`). -/
def isDigitCh (ch : Char) : Bool :=
  48 ≤ ch.toNat && ch.toNat ≤ 57

theorem isWordChar_not_ws {ch : Char} (h : isWordChar ch = true) : isWs ch = false := by
  rw [← Bool.not_eq_true]
  simp only [isWordChar, isWs, Bool.or_eq_true, Bool.and_eq_true, beq_iff_eq,
    decide_eq_true_eq] at h ⊢
  omega

theorem isDigitCh_not_ws {ch : Char} (h : isDigitCh ch = true) : isWs ch = false := by
  rw [← Bool.not_eq_true]
  simp only [isDigitCh, isWs, Bool.or_eq_true, Bool.and_eq_true, beq_iff_eq,
    decide_eq_true_eq] at h ⊢
  omega

/-! Section: Generic list lemmas used throughout -/

theorem takeWhile_append_all {α} {p : α → Bool} :
    ∀ (xs ys : List α), (∀ x ∈ xs, p x = true) →
      (xs ++ ys).takeWhile p = xs ++ ys.takeWhile p
  | [], _, _ => rfl
  | x :: xs, ys, h => by
    have hx : p x = true := h x (by simp)
    simp only [List.cons_append, List.takeWhile_cons, hx, if_true]
    rw [takeWhile_append_all xs ys (fun a ha => h a (by simp [ha]))]

theorem dropWhile_append_all {α} {p : α → Bool} :
    ∀ (xs ys : List α), (∀ x ∈ xs, p x = true) →
      (xs ++ ys).dropWhile p = ys.dropWhile p
  | [], _, _ => rfl
  | x :: xs, ys, h => by
    have hx : p x = true := h x (by simp)
    simp only [List.cons_append, List.dropWhile_cons, hx]
    exact dropWhile_append_all xs ys (fun a ha => h a (by simp [ha]))

theorem takeWhile_head_false {α} {p : α → Bool} {y : α} {ys : List α}
    (h : p y = false) : (y :: ys).takeWhile p = [] := by
  simp [List.takeWhile_cons, h]

theorem dropWhile_head_false {α} {p : α → Bool} {y : α} {ys : List α}
    (h : p y = false) : (y :: ys).dropWhile p = y :: ys := by
  simp [List.dropWhile_cons, h]

theorem drop_append_len {α} :
    ∀ (xs ys : List α) (k : Nat), (xs ++ ys).drop (xs.length + k) = ys.drop k
  | [], _, _ => by simp
  | x :: xs, ys, k => by
    simp only [List.cons_append, List.length_cons, Nat.succ_add, List.drop_succ_cons]
    exact drop_append_len xs ys k

theorem drop_append_le {α} :
    ∀ (xs ys : List α) (k : Nat), k ≤ xs.length →
      (xs ++ ys).drop k = xs.drop k ++ ys
  | _, _, 0, _ => rfl
  | x :: xs, ys, k + 1, h => by
    simpa using drop_append_le xs ys k (Nat.le_of_succ_le_succ h)
  | [], _, k + 1, h => by simp at h

theorem take_append_len {α} :
    ∀ (xs ys : List α), (xs ++ ys).take xs.length = xs
  | [], _ => rfl
  | x :: xs, ys => by
    simp only [List.cons_append, List.length_cons, List.take_succ_cons]
    rw [take_append_len xs ys]

theorem mem_of_mem_drop {α} {a : α} :
    ∀ {xs : List α} {k : Nat}, a ∈ xs.drop k → a ∈ xs
  | _, 0, h => h
  | x :: xs, k + 1, h => List.mem_cons_of_mem x (mem_of_mem_drop h)
  | [], k + 1, h => by simp at h

theorem dropWhile_length_le {α} {p : α → Bool} :
    ∀ (xs : List α), (xs.dropWhile p).length ≤ xs.length
  | [] => Nat.le_refl 0
  | x :: xs => by
    rw [List.dropWhile_cons]
    split
    · exact Nat.le_succ_of_le (dropWhile_length_le xs)
    · exact Nat.le_refl _

theorem takeWhile_all_pass {α} {p : α → Bool} (xs : List α)
    (h : ∀ x ∈ xs, p x = true) : xs.takeWhile p = xs := by
  have he := takeWhile_append_all xs [] h
  simpa using he

theorem takeWhile_length_le {α} {p : α → Bool} :
    ∀ (xs : List α), (xs.takeWhile p).length ≤ xs.length
  | [] => Nat.le_refl 0
  | x :: xs => by
    rw [List.takeWhile_cons]
    split
    · simpa using Nat.succ_le_succ (takeWhile_length_le xs)
    · exact Nat.zero_le _

theorem mem_dropWhile_of_pred_false {α} {p : α → Bool} {a : α} :
    ∀ {xs : List α}, a ∈ xs → p a = false → a ∈ xs.dropWhile p := by
  intro xs
  induction xs with
  | nil => intro hm _; simp at hm
  | cons x xs ih =>
    intro hm hpa
    rw [List.dropWhile_cons]
    split
    · rename_i hpx
      rcases List.mem_cons.mp hm with rfl | hm'
      · rw [hpa] at hpx; cases hpx
      · exact ih hm' hpa
    · exact hm

/-- When some element of `xs` fails the predicate, the `dropWhile` scan stops
inside `xs` and appending `ys` distributes. -/
theorem dropWhile_append_stop {α} {p : α → Bool} {a : α} :
    ∀ {xs : List α} (ys : List α), a ∈ xs → p a = false →
      (xs ++ ys).dropWhile p = xs.dropWhile p ++ ys := by
  intro xs
  induction xs with
  | nil => intro ys hm _; simp at hm
  | cons x xs ih =>
    intro ys hm hpa
    simp only [List.cons_append, List.dropWhile_cons]
    by_cases hpx : p x = true
    · rw [if_pos hpx, if_pos hpx]
      rcases List.mem_cons.mp hm with rfl | hm'
      · rw [hpa] at hpx; cases hpx
      · exact ih ys hm' hpa
    · rw [if_neg hpx, if_neg hpx, List.cons_append]

/-- When some element of `xs` fails the predicate, the `takeWhile` scan stops
inside `xs` and appending `ys` changes nothing. -/
theorem takeWhile_append_stop {α} {p : α → Bool} {a : α} :
    ∀ {xs : List α} (ys : List α), a ∈ xs → p a = false →
      (xs ++ ys).takeWhile p = xs.takeWhile p := by
  intro xs
  induction xs with
  | nil => intro ys hm _; simp at hm
  | cons x xs ih =>
    intro ys hm hpa
    simp only [List.cons_append, List.takeWhile_cons]
    by_cases hpx : p x = true
    · rw [if_pos hpx, if_pos hpx]
      rcases List.mem_cons.mp hm with rfl | hm'
      · rw [hpa] at hpx; cases hpx
      · rw [ih ys hm' hpa]
    · rw [if_neg hpx, if_neg hpx]

theorem dropWhile_head_pred_false {α} {p : α → Bool} :
    ∀ {xs : List α} {c : α} {r : List α}, xs.dropWhile p = c :: r → p c = false := by
  intro xs
  induction xs with
  | nil => intro c r h; simp at h
  | cons x xs ih =>
    intro c r h
    rw [List.dropWhile_cons] at h
    by_cases hpx : p x = true
    · rw [if_pos hpx] at h; exact ih h
    · rw [if_neg hpx] at h
      cases h
      simpa using hpx

/-! Section: Python `str.replace`

`s.replace(old, new)` scans `s` left to right, replacing non-overlapping
occurrences of `old`, the leftmost first; the replacement text is not
re-scanned.  For the empty pattern Python inserts `new` around every
character.  The scan is implemented with explicit fuel (one unit per
character consumed) so that the definition reduces in the kernel. -/

def replaceLoopF (pat rep : Str) : Nat → Str → Str
  | 0, _ => []
  | fuel + 1, s =>
    match s with
    | [] => []
    | c :: cs =>
      if pat.isPrefixOf (c :: cs) then
        rep ++ replaceLoopF pat rep fuel ((c :: cs).drop pat.length)
      else
        c :: replaceLoopF pat rep fuel cs

/-- Python `str.replace`: `s.replace(pat, rep)`, all occurrences. -/
def strReplace (s pat rep : Str) : Str :=
  if pat = [] then rep ++ s.flatMap (fun c => c :: rep)
  else replaceLoopF pat rep s.length s

theorem isPrefixOf_length_le {pat : Str} :
    ∀ {s : Str}, pat.isPrefixOf s = true → pat.length ≤ s.length := by
  intro s h
  have h' := List.isPrefixOf_iff_prefix.mp h
  exact h'.length_le

theorem replaceLoopF_nil (pat rep : Str) : ∀ f, replaceLoopF pat rep f [] = []
  | 0 => rfl
  | _ + 1 => rfl

theorem pat_length_pos {pat : Str} (hpat : pat ≠ []) : 1 ≤ pat.length := by
  cases pat with
  | nil => exact absurd rfl hpat
  | cons p ps => simp

theorem replaceLoopF_congr (pat rep : Str) (hpat : pat ≠ []) :
    ∀ (f1 f2 : Nat) (s : Str), s.length ≤ f1 → s.length ≤ f2 →
      replaceLoopF pat rep f1 s = replaceLoopF pat rep f2 s := by
  intro f1
  induction f1 using Nat.strong_induction_on with
  | _ f1 ih =>
    intro f2 s h1 h2
    match s, f1, f2 with
    | [], g1, g2 => rw [replaceLoopF_nil, replaceLoopF_nil]
    | c :: cs, 0, _ => simp at h1
    | c :: cs, _ + 1, 0 => simp at h2
    | c :: cs, g1 + 1, g2 + 1 =>
      have hplen : 1 ≤ pat.length := pat_length_pos hpat
      simp only [replaceLoopF]
      split
      · have hdlen : ((c :: cs).drop pat.length).length ≤ g1 := by
          simp only [List.length_drop, List.length_cons]
          simp only [List.length_cons] at h1
          omega
        have hdlen2 : ((c :: cs).drop pat.length).length ≤ g2 := by
          simp only [List.length_drop, List.length_cons]
          simp only [List.length_cons] at h2
          omega
        rw [ih g1 (Nat.lt_succ_self g1) g2 _ hdlen hdlen2]
      · have hlen : cs.length ≤ g1 := by
          simp only [List.length_cons] at h1; omega
        have hlen2 : cs.length ≤ g2 := by
          simp only [List.length_cons] at h2; omega
        rw [ih g1 (Nat.lt_succ_self g1) g2 _ hlen hlen2]

theorem strReplace_nil (pat rep : Str) (hpat : pat ≠ []) :
    strReplace [] pat rep = [] := by
  rw [strReplace, if_neg hpat]
  exact replaceLoopF_nil pat rep _

theorem strReplace_cons_match (pat rep : Str) (c : Char) (cs : Str)
    (hpat : pat ≠ []) (h : pat.isPrefixOf (c :: cs) = true) :
    strReplace (c :: cs) pat rep =
      rep ++ strReplace ((c :: cs).drop pat.length) pat rep := by
  have hplen : 1 ≤ pat.length := pat_length_pos hpat
  rw [strReplace, if_neg hpat, strReplace, if_neg hpat]
  simp only [List.length_cons, replaceLoopF, if_pos h]
  congr 1
  apply replaceLoopF_congr pat rep hpat
  · simp only [List.length_drop, List.length_cons]; omega
  · exact Nat.le_refl _

theorem strReplace_cons_nomatch (pat rep : Str) (c : Char) (cs : Str)
    (hpat : pat ≠ []) (h : pat.isPrefixOf (c :: cs) = false) :
    strReplace (c :: cs) pat rep = c :: strReplace cs pat rep := by
  rw [strReplace, if_neg hpat, strReplace, if_neg hpat]
  simp only [List.length_cons, replaceLoopF, h, Bool.false_eq_true, if_false]

example : strReplace "Double #E1".toList "#E1".toList "5".toList = "Double 5".toList := by decide
example : strReplace "aaa".toList "aa".toList "b".toList = "ba".toList := by decide

/-! Section: Occurrence counting and splitting

`countOccs pat s` counts the leftmost non-overlapping occurrences of `pat`
in `s`, exactly the occurrences that `str.replace` rewrites.  `splitOnPat`
is Python's `s.split(pat)`; Python documents `s.replace(a, b)` as
`b.join(s.split(a))`, which is proved below as `strReplace_eq_joinWith`. -/

def countOccsF (pat : Str) : Nat → Str → Nat
  | 0, _ => 0
  | fuel + 1, s =>
    match s with
    | [] => 0
    | c :: cs =>
      if pat.isPrefixOf (c :: cs) then
        1 + countOccsF pat fuel ((c :: cs).drop pat.length)
      else
        countOccsF pat fuel cs

/-- Number of leftmost non-overlapping occurrences of `pat` in `s`. -/
def countOccs (pat s : Str) : Nat := countOccsF pat s.length s

def splitOnPatF (pat : Str) : Nat → Str → List Str
  | 0, _ => [[]]
  | fuel + 1, s =>
    match s with
    | [] => [[]]
    | c :: cs =>
      if pat.isPrefixOf (c :: cs) then
        [] :: splitOnPatF pat fuel ((c :: cs).drop pat.length)
      else
        match splitOnPatF pat fuel cs with
        | p :: ps => (c :: p) :: ps
        | [] => [[c]]

/-- Python `s.split(pat)` for a nonempty separator `pat`. -/
def splitOnPat (pat s : Str) : List Str := splitOnPatF pat s.length s

/-- Python `str.join`: `rep.join(pieces)`. -/
def joinWith (sep : Str) : List Str → Str
  | [] => []
  | [x] => x
  | x :: xs => x ++ sep ++ joinWith sep xs

theorem countOccsF_nil (pat : Str) : ∀ f, countOccsF pat f [] = 0
  | 0 => rfl
  | _ + 1 => rfl

theorem countOccsF_congr (pat : Str) (hpat : pat ≠ []) :
    ∀ (f1 f2 : Nat) (s : Str), s.length ≤ f1 → s.length ≤ f2 →
      countOccsF pat f1 s = countOccsF pat f2 s := by
  intro f1
  induction f1 using Nat.strong_induction_on with
  | _ f1 ih =>
    intro f2 s h1 h2
    match s, f1, f2 with
    | [], g1, g2 => rw [countOccsF_nil, countOccsF_nil]
    | c :: cs, 0, _ => simp at h1
    | c :: cs, _ + 1, 0 => simp at h2
    | c :: cs, g1 + 1, g2 + 1 =>
      have hplen : 1 ≤ pat.length := pat_length_pos hpat
      simp only [countOccsF]
      split
      · have hd1 : ((c :: cs).drop pat.length).length ≤ g1 := by
          simp only [List.length_drop, List.length_cons]
          simp only [List.length_cons] at h1; omega
        have hd2 : ((c :: cs).drop pat.length).length ≤ g2 := by
          simp only [List.length_drop, List.length_cons]
          simp only [List.length_cons] at h2; omega
        rw [ih g1 (Nat.lt_succ_self g1) g2 _ hd1 hd2]
      · have hl1 : cs.length ≤ g1 := by simp only [List.length_cons] at h1; omega
        have hl2 : cs.length ≤ g2 := by simp only [List.length_cons] at h2; omega
        rw [ih g1 (Nat.lt_succ_self g1) g2 _ hl1 hl2]

theorem countOccs_cons_match (pat : Str) (c : Char) (cs : Str)
    (hpat : pat ≠ []) (h : pat.isPrefixOf (c :: cs) = true) :
    countOccs pat (c :: cs) = 1 + countOccs pat ((c :: cs).drop pat.length) := by
  have hplen : 1 ≤ pat.length := pat_length_pos hpat
  rw [countOccs, countOccs]
  simp only [List.length_cons, countOccsF, if_pos h]
  congr 1
  apply countOccsF_congr pat hpat
  · simp only [List.length_drop, List.length_cons]; omega
  · exact Nat.le_refl _

theorem countOccs_cons_nomatch (pat : Str) (c : Char) (cs : Str)
    (_hpat : pat ≠ []) (h : pat.isPrefixOf (c :: cs) = false) :
    countOccs pat (c :: cs) = countOccs pat cs := by
  rw [countOccs, countOccs]
  simp only [List.length_cons, countOccsF, h, Bool.false_eq_true, if_false]

theorem splitOnPatF_nil (pat : Str) : ∀ f, splitOnPatF pat f [] = [[]]
  | 0 => rfl
  | _ + 1 => rfl

theorem splitOnPatF_ne_nil (pat : Str) : ∀ f s, splitOnPatF pat f s ≠ []
  | 0, _ => by simp [splitOnPatF]
  | f + 1, [] => by simp [splitOnPatF]
  | f + 1, c :: cs => by
    simp only [splitOnPatF]
    split
    · simp
    · split
      · simp
      · simp

theorem splitOnPatF_congr (pat : Str) (hpat : pat ≠ []) :
    ∀ (f1 f2 : Nat) (s : Str), s.length ≤ f1 → s.length ≤ f2 →
      splitOnPatF pat f1 s = splitOnPatF pat f2 s := by
  intro f1
  induction f1 using Nat.strong_induction_on with
  | _ f1 ih =>
    intro f2 s h1 h2
    match s, f1, f2 with
    | [], g1, g2 => rw [splitOnPatF_nil, splitOnPatF_nil]
    | c :: cs, 0, _ => simp at h1
    | c :: cs, _ + 1, 0 => simp at h2
    | c :: cs, g1 + 1, g2 + 1 =>
      have hplen : 1 ≤ pat.length := pat_length_pos hpat
      simp only [splitOnPatF]
      split
      · have hd1 : ((c :: cs).drop pat.length).length ≤ g1 := by
          simp only [List.length_drop, List.length_cons]
          simp only [List.length_cons] at h1; omega
        have hd2 : ((c :: cs).drop pat.length).length ≤ g2 := by
          simp only [List.length_drop, List.length_cons]
          simp only [List.length_cons] at h2; omega
        rw [ih g1 (Nat.lt_succ_self g1) g2 _ hd1 hd2]
      · have hl1 : cs.length ≤ g1 := by simp only [List.length_cons] at h1; omega
        have hl2 : cs.length ≤ g2 := by simp only [List.length_cons] at h2; omega
        rw [ih g1 (Nat.lt_succ_self g1) g2 _ hl1 hl2]

theorem splitOnPat_cons_match (pat : Str) (c : Char) (cs : Str)
    (hpat : pat ≠ []) (h : pat.isPrefixOf (c :: cs) = true) :
    splitOnPat pat (c :: cs) = [] :: splitOnPat pat ((c :: cs).drop pat.length) := by
  have hplen : 1 ≤ pat.length := pat_length_pos hpat
  rw [splitOnPat, splitOnPat]
  simp only [List.length_cons, splitOnPatF, if_pos h]
  congr 1
  apply splitOnPatF_congr pat hpat
  · simp only [List.length_drop, List.length_cons]; omega
  · exact Nat.le_refl _

theorem splitOnPat_cons_nomatch (pat : Str) (c : Char) (cs : Str)
    (_hpat : pat ≠ []) (h : pat.isPrefixOf (c :: cs) = false) :
    splitOnPat pat (c :: cs) =
      match splitOnPat pat cs with
      | p :: ps => (c :: p) :: ps
      | [] => [[c]] := by
  rw [splitOnPat, splitOnPat]
  simp only [List.length_cons, splitOnPatF, h, Bool.false_eq_true, if_false]

theorem splitOnPat_ne_nil (pat s : Str) : splitOnPat pat s ≠ [] :=
  splitOnPatF_ne_nil pat s.length s

theorem joinWith_cons_of_ne_nil (sep x : Str) {xs : List Str} (h : xs ≠ []) :
    joinWith sep (x :: xs) = x ++ sep ++ joinWith sep xs := by
  cases xs with
  | nil => exact absurd rfl h
  | cons y ys => rfl

/-- Python's documented equivalence `s.replace(a, b) == b.join(s.split(a))`
for a nonempty pattern: every leftmost non-overlapping occurrence of the
pattern is replaced by `rep`. -/
theorem strReplace_eq_joinWith (pat rep : Str) (hpat : pat ≠ []) (s : Str) :
    strReplace s pat rep = joinWith rep (splitOnPat pat s) := by
  suffices H : ∀ (n : Nat) (s : Str), s.length = n →
      strReplace s pat rep = joinWith rep (splitOnPat pat s) from H s.length s rfl
  intro n
  induction n using Nat.strong_induction_on with
  | _ n ih =>
    intro s hn
    match s with
    | [] =>
      rw [strReplace_nil pat rep hpat, splitOnPat]
      rw [splitOnPatF_nil]
      rfl
    | c :: cs =>
      have hplen : 1 ≤ pat.length := pat_length_pos hpat
      by_cases hm : pat.isPrefixOf (c :: cs) = true
      · rw [strReplace_cons_match pat rep c cs hpat hm,
          splitOnPat_cons_match pat c cs hpat hm]
        have hlt : ((c :: cs).drop pat.length).length < n := by
          subst hn
          simp only [List.length_drop, List.length_cons]
          omega
        rw [ih _ hlt _ rfl]
        rw [joinWith_cons_of_ne_nil rep [] (splitOnPat_ne_nil pat _)]
        simp
      · have hm' : pat.isPrefixOf (c :: cs) = false :=
          Bool.not_eq_true _ |>.mp hm
        rw [strReplace_cons_nomatch pat rep c cs hpat hm',
          splitOnPat_cons_nomatch pat c cs hpat hm']
        have hlt : cs.length < n := by
          subst hn; simp
        rw [ih _ hlt _ rfl]
        cases hsp : splitOnPat pat cs with
        | nil => exact absurd hsp (splitOnPat_ne_nil pat cs)
        | cons p ps =>
          cases ps with
          | nil => rfl
          | cons q qs =>
            rw [joinWith_cons_of_ne_nil rep p (by simp),
              joinWith_cons_of_ne_nil rep (c :: p) (by simp)]
            simp

/-- Splitting produces one more piece than there are occurrences. -/
theorem splitOnPat_length_eq (pat : Str) (hpat : pat ≠ []) (s : Str) :
    (splitOnPat pat s).length = countOccs pat s + 1 := by
  suffices H : ∀ (n : Nat) (s : Str), s.length = n →
      (splitOnPat pat s).length = countOccs pat s + 1 from H s.length s rfl
  intro n
  induction n using Nat.strong_induction_on with
  | _ n ih =>
    intro s hn
    match s with
    | [] =>
      rw [splitOnPat, splitOnPatF_nil, countOccs, countOccsF_nil]
      rfl
    | c :: cs =>
      have hplen : 1 ≤ pat.length := pat_length_pos hpat
      by_cases hm : pat.isPrefixOf (c :: cs) = true
      · rw [splitOnPat_cons_match pat c cs hpat hm,
          countOccs_cons_match pat c cs hpat hm]
        have hlt : ((c :: cs).drop pat.length).length < n := by
          subst hn
          simp only [List.length_drop, List.length_cons]
          omega
        simp only [List.length_cons]
        rw [ih _ hlt _ rfl]
        omega
      · have hm' : pat.isPrefixOf (c :: cs) = false :=
          Bool.not_eq_true _ |>.mp hm
        rw [splitOnPat_cons_nomatch pat c cs hpat hm',
          countOccs_cons_nomatch pat c cs hpat hm']
        have hlt : cs.length < n := by subst hn; simp
        have := ih _ hlt cs rfl
        cases hsp : splitOnPat pat cs with
        | nil => exact absurd hsp (splitOnPat_ne_nil pat cs)
        | cons p ps =>
          rw [hsp] at this
          simpa using this

theorem head_eq_of_isPrefixOf {p c : Char} {ps cs : Str}
    (h : (p :: ps).isPrefixOf (c :: cs) = true) : p = c := by
  simp only [List.isPrefixOf, Bool.and_eq_true, beq_iff_eq] at h
  exact h.1

/-- Replacement leaves text alone when the pattern's first character does
not occur in it. -/
theorem strReplace_of_head_not_mem {h0 : Char} {rest rep : Str} :
    ∀ {s : Str}, h0 ∉ s → strReplace s (h0 :: rest) rep = s
  | [], _ => strReplace_nil _ _ (by simp)
  | c :: cs, hmem => by
    have hne : (h0 :: rest).isPrefixOf (c :: cs) = false := by
      cases hpre : (h0 :: rest).isPrefixOf (c :: cs) with
      | false => rfl
      | true =>
        have := head_eq_of_isPrefixOf hpre
        subst this
        exact absurd (by simp) hmem
    rw [strReplace_cons_nomatch _ _ _ _ (by simp) hne]
    rw [strReplace_of_head_not_mem (fun hc => hmem (List.mem_cons_of_mem c hc))]

/-- Replacement skips over leading text free of the pattern's first
character. -/
theorem strReplace_append_of_head_not_mem {h0 : Char} {rest rep : Str} :
    ∀ {a : Str} (t : Str), h0 ∉ a →
      strReplace (a ++ t) (h0 :: rest) rep = a ++ strReplace t (h0 :: rest) rep
  | [], t, _ => by simp
  | c :: cs, t, hmem => by
    have hne : (h0 :: rest).isPrefixOf (c :: (cs ++ t)) = false := by
      cases hpre : (h0 :: rest).isPrefixOf (c :: (cs ++ t)) with
      | false => rfl
      | true =>
        have := head_eq_of_isPrefixOf hpre
        subst this
        exact absurd (by simp) hmem
    rw [List.cons_append, strReplace_cons_nomatch _ _ _ _ (by simp) hne]
    rw [strReplace_append_of_head_not_mem t (fun hc => hmem (List.mem_cons_of_mem c hc))]
    simp

/-! Section: The plan grammar parser

`get_plan` extracts steps with
`re.findall(r"Plan:\s*(.+)\s*(#E\d+)\s*=\s*(\w+)\s*\[([^\]]+)\]", text)`.

The pattern decomposes as the literal `Plan:`, a greedy whitespace run, the
greedy group `(.+)` (any characters except newline, at least one), and the
tail `\s*(#E\d+)\s*=\s*(\w+)\s*\[([^\]]+)\]`.  In that tail every quantifier
is followed by a character its class cannot match, so matching the tail is
deterministic maximal munch (`matchTail` below).  The only true backtracking
is the interplay of `Plan:\s*` and `(.+)`: Python tries the longest
whitespace run first, and within it the longest description first
(`tryWs` / `tryDescLens` below, descending).  `re.findall` scans positions
left to right, emitting non-overlapping matches (`findPlansAuxF`). -/

def expectChar (c : Char) : Str → Option Str
  | x :: xs => if x = c then some xs else none
  | [] => none

/-- Deterministic matcher for `\s*(#E\d+)\s*=\s*(\w+)\s*\[([^\]]+)\]`:
returns (variable group, capability group, input group, rest of text). -/
def matchTail (s : Str) : Option (Str × Str × Str × Str) :=
  (expectChar '#' (s.dropWhile isWs)).bind fun t1 =>
  (expectChar 'E' t1).bind fun s2 =>
  let digits := s2.takeWhile isDigitCh
  if digits = [] then none else
  (expectChar '=' ((s2.dropWhile isDigitCh).dropWhile isWs)).bind fun s5 =>
  let s6 := s5.dropWhile isWs
  let w := s6.takeWhile isWordChar
  if w = [] then none else
  (expectChar '[' ((s6.dropWhile isWordChar).dropWhile isWs)).bind fun s9 =>
  let inp := s9.takeWhile (fun ch => ch != ']')
  if inp = [] then none else
  (expectChar ']' (s9.dropWhile (fun ch => ch != ']'))).bind fun s10 =>
  some ('#' :: 'E' :: digits, w, inp, s10)

/-- Greedy `(.+)`: description lengths tried longest first.  `s` is the text
at the start of the description; the candidate length `p` counts down. -/
def tryDescLens (s : Str) : Nat → Option (Str × Str × Str × Str × Str)
  | 0 => none
  | p + 1 =>
    match matchTail (s.drop (p + 1)) with
    | some (v, w, i, r) => some (s.take (p + 1), v, w, i, r)
    | none => tryDescLens s p

/-- Try descriptions starting after `a` characters of leading whitespace;
`(.+)` cannot cross a newline, so the candidates span the current line. -/
def tryDescAt (s : Str) (a : Nat) : Option (Str × Str × Str × Str × Str) :=
  tryDescLens (s.drop a) (((s.drop a).takeWhile (fun ch => ch != '\n')).length)

/-- Greedy `\s*` before the description: offsets tried longest first. -/
def tryWs (s : Str) : Nat → Option (Str × Str × Str × Str × Str)
  | 0 => tryDescAt s 0
  | a + 1 =>
    match tryDescAt s (a + 1) with
    | some r => some r
    | none => tryWs s a

/-- Match the regex minus its `Plan:` literal at the start of `s`; returns
(description, variable, capability, input, rest after the match). -/
def matchAfterPlan (s : Str) : Option (Str × Str × Str × Str × Str) :=
  tryWs s ((s.takeWhile isWs).length)

/-- One parsed step: the tuple captured by the regex groups, in the order
the code unpacks them (`_plan, step_name, tool, tool_input`). -/
structure PStep where
  plan : Str
  step_name : Str
  tool : Str
  tool_input : Str
deriving DecidableEq, Repr

/-- Left-to-right scan of `re.findall`: try the pattern at each position;
on a match, emit the groups and resume after the matched text.  Fuel is one
unit per character consumed, so `s.length` suffices. -/
def findPlansAuxF : Nat → Str → List PStep
  | 0, _ => []
  | _ + 1, [] => []
  | fuel + 1, c :: cs =>
    if ("Plan:".toList).isPrefixOf (c :: cs) then
      match matchAfterPlan ((c :: cs).drop 5) with
      | some (d, v, w, i, r) => ⟨d, v, w, i⟩ :: findPlansAuxF fuel r
      | none => findPlansAuxF fuel cs
    else findPlansAuxF fuel cs

/-- The call `re.findall(regex_pattern, text)` made by `get_plan`. -/
def findPlans (s : Str) : List PStep := findPlansAuxF s.length s

theorem expectChar_length {c : Char} :
    ∀ {t r : Str}, expectChar c t = some r → r.length < t.length := by
  intro t r h
  match t with
  | [] => simp [expectChar] at h
  | x :: xs =>
    simp only [expectChar] at h
    split at h
    · cases h; simp
    · cases h

theorem matchTail_rest_length {s : Str} {v w i r : Str}
    (h : matchTail s = some (v, w, i, r)) : r.length ≤ s.length := by
  unfold matchTail at h
  cases h1 : expectChar '#' (s.dropWhile isWs) with
  | none => rw [h1] at h; simp at h
  | some t1 =>
    rw [h1] at h
    simp only [Option.some_bind] at h
    cases h2 : expectChar 'E' t1 with
    | none => rw [h2] at h; simp at h
    | some s2 =>
      rw [h2] at h
      simp only [Option.some_bind] at h
      split at h
      · simp at h
      · cases h5 : expectChar '=' ((s2.dropWhile isDigitCh).dropWhile isWs) with
        | none => rw [h5] at h; simp at h
        | some s5 =>
          rw [h5] at h
          simp only [Option.some_bind] at h
          split at h
          · simp at h
          · cases h9 : expectChar '[' (((s5.dropWhile isWs).dropWhile isWordChar).dropWhile isWs) with
            | none => rw [h9] at h; simp at h
            | some s9 =>
              rw [h9] at h
              simp only [Option.some_bind] at h
              split at h
              · simp at h
              · cases h10 : expectChar ']' (s9.dropWhile (fun ch => ch != ']')) with
                | none => rw [h10] at h; simp at h
                | some s10 =>
                  rw [h10] at h
                  simp only [Option.some_bind, Option.some.injEq, Prod.mk.injEq] at h
                  have hr : r = s10 := h.2.2.2.symm
                  subst hr
                  have l1 := expectChar_length h1
                  have l2 := expectChar_length h2
                  have l5 := expectChar_length h5
                  have l9 := expectChar_length h9
                  have l10 := expectChar_length h10
                  have d0 := dropWhile_length_le (p := isWs) s
                  have d2 := dropWhile_length_le (p := isDigitCh) s2
                  have d2b := dropWhile_length_le (p := isWs) (s2.dropWhile isDigitCh)
                  have d5 := dropWhile_length_le (p := isWs) s5
                  have d6 := dropWhile_length_le (p := isWordChar) (s5.dropWhile isWs)
                  have d6b := dropWhile_length_le (p := isWs) ((s5.dropWhile isWs).dropWhile isWordChar)
                  have d9 := dropWhile_length_le (p := fun ch => ch != ']') s9
                  omega

theorem tryDescLens_rest_length {s : Str} :
    ∀ {p : Nat} {d v w i r : Str}, tryDescLens s p = some (d, v, w, i, r) →
      r.length ≤ s.length := by
  intro p
  induction p with
  | zero => intro d v w i r h; simp [tryDescLens] at h
  | succ p ih =>
    intro d v w i r h
    simp only [tryDescLens] at h
    cases hm : matchTail (s.drop (p + 1)) with
    | none => rw [hm] at h; exact ih h
    | some t =>
      obtain ⟨v', w', i', r'⟩ := t
      rw [hm] at h
      simp only [Option.some.injEq, Prod.mk.injEq] at h
      have hr : r = r' := h.2.2.2.2.symm
      subst hr
      have := matchTail_rest_length hm
      have hd : (s.drop (p + 1)).length ≤ s.length := by
        simp only [List.length_drop]; omega
      omega

theorem tryDescAt_rest_length {s : Str} {a : Nat} {d v w i r : Str}
    (h : tryDescAt s a = some (d, v, w, i, r)) : r.length ≤ s.length := by
  have := tryDescLens_rest_length h
  have hd : (s.drop a).length ≤ s.length := by
    simp only [List.length_drop]; omega
  omega

theorem tryWs_rest_length {s : Str} :
    ∀ {a : Nat} {d v w i r : Str}, tryWs s a = some (d, v, w, i, r) →
      r.length ≤ s.length := by
  intro a
  induction a with
  | zero => intro d v w i r h; exact tryDescAt_rest_length h
  | succ a ih =>
    intro d v w i r h
    simp only [tryWs] at h
    cases hm : tryDescAt s (a + 1) with
    | none => rw [hm] at h; exact ih h
    | some t =>
      rw [hm] at h
      cases h
      exact tryDescAt_rest_length hm

theorem matchAfterPlan_rest_length {s : Str} {d v w i r : Str}
    (h : matchAfterPlan s = some (d, v, w, i, r)) : r.length ≤ s.length :=
  tryWs_rest_length h

theorem findPlansAuxF_nil : ∀ f, findPlansAuxF f [] = []
  | 0 => rfl
  | _ + 1 => rfl

theorem findPlansAuxF_congr :
    ∀ (f1 f2 : Nat) (s : Str), s.length ≤ f1 → s.length ≤ f2 →
      findPlansAuxF f1 s = findPlansAuxF f2 s := by
  intro f1
  induction f1 using Nat.strong_induction_on with
  | _ f1 ih =>
    intro f2 s h1 h2
    match s, f1, f2 with
    | [], g1, g2 => rw [findPlansAuxF_nil, findPlansAuxF_nil]
    | c :: cs, 0, _ => simp at h1
    | c :: cs, _ + 1, 0 => simp at h2
    | c :: cs, g1 + 1, g2 + 1 =>
      simp only [findPlansAuxF]
      split
      · rename_i hpre
        have hlen5 : ("Plan:".toList).length ≤ (c :: cs).length :=
          isPrefixOf_length_le hpre
        simp only [List.length_cons] at h1 h2 hlen5
        cases hm : matchAfterPlan ((c :: cs).drop 5) with
        | some t =>
          obtain ⟨d, v, w, i, r⟩ := t
          have hr := matchAfterPlan_rest_length hm
          have hd : ((c :: cs).drop 5).length = cs.length - 4 := by
            simp only [List.length_drop, List.length_cons]; omega
          show PStep.mk d v w i :: findPlansAuxF g1 r =
            PStep.mk d v w i :: findPlansAuxF g2 r
          rw [ih g1 (Nat.lt_succ_self g1) g2 r (by omega) (by omega)]
        | none =>
          show findPlansAuxF g1 cs = findPlansAuxF g2 cs
          rw [ih g1 (Nat.lt_succ_self g1) g2 cs (by omega) (by omega)]
      · simp only [List.length_cons] at h1 h2
        rw [ih g1 (Nat.lt_succ_self g1) g2 cs (by omega) (by omega)]

theorem findPlans_cons_plan {c : Char} {cs : Str} {d v w i r : Str}
    (hpre : ("Plan:".toList).isPrefixOf (c :: cs) = true)
    (hm : matchAfterPlan ((c :: cs).drop 5) = some (d, v, w, i, r)) :
    findPlans (c :: cs) = ⟨d, v, w, i⟩ :: findPlans r := by
  have hlen5 : ("Plan:".toList).length ≤ (c :: cs).length := isPrefixOf_length_le hpre
  have hr := matchAfterPlan_rest_length hm
  have hd : ((c :: cs).drop 5).length = cs.length - 4 := by
    simp only [List.length_drop, List.length_cons]; omega
  simp only [List.length_cons] at hlen5
  rw [findPlans, findPlans]
  simp only [List.length_cons, findPlansAuxF, if_pos hpre, hm]
  congr 1
  exact findPlansAuxF_congr cs.length r.length r (by omega) (Nat.le_refl _)

theorem findPlans_cons_skip {c : Char} {cs : Str}
    (hpre : ("Plan:".toList).isPrefixOf (c :: cs) = false) :
    findPlans (c :: cs) = findPlans cs := by
  rw [findPlans, findPlans]
  simp only [List.length_cons, findPlansAuxF, hpre, Bool.false_eq_true, if_false]

example :
    findPlans "Plan: add #E1 = LLM[What is 2+3]\nPlan: double #E2 = LLM[Double #E1]".toList =
      [⟨"add ".toList, "#E1".toList, "LLM".toList, "What is 2+3".toList⟩,
       ⟨"double ".toList, "#E2".toList, "LLM".toList, "Double #E1".toList⟩] := by decide

example : findPlans "no plan here".toList = [] := by decide

example :
    findPlans "Plan: abc\n#E1 = C[x]".toList =
      [⟨"abc".toList, "#E1".toList, "C".toList, "x".toList⟩] := by decide

/-! Section: Well-formed plan clauses and the parser round trip -/

/-- Source material of one well-formed clause
`Plan: <d> #E<num> = <c>[<inp>]`. -/
structure ClauseSrc where
  d : Str
  num : Str
  c : Str
  inp : Str

/-- First character (if any) is not whitespace. -/
def headNonWs (l : Str) : Bool := l.head?.all (fun ch => !isWs ch)

/-- The clause text from the `#E` token onwards. -/
def clauseTail (cl : ClauseSrc) : Str :=
  '#' :: 'E' :: (cl.num ++ ' ' :: '=' :: ' ' :: (cl.c ++ '[' :: (cl.inp ++ [']'])))

/-- No proper interior position of the clause tail matches the tail pattern
`\s*(#E\d+)\s*=\s*(\w+)\s*\[([^\]]+)\]`: the greedy description search scans
positions right to left, so this is exactly the condition under which it
settles on the clause's own `#E` token.  Evidence references such as
`Double #E1` inside the input pass the check (after `#E1` no `=` follows);
assignment-shaped input text such as `x #E9 = Foo[y` fails it. -/
def tailSafe (cl : ClauseSrc) : Bool :=
  (List.range (clauseTail cl).length).all
    (fun k => k == 0 || (matchTail ((clauseTail cl).drop k)).isNone)

/-- Well-formedness of a clause: nonempty single-line description with
non-whitespace edges, nonempty digit string, nonempty word-only capability
name, nonempty input without `]` (the closing delimiter the regex searches
for), and no interior text that the tail pattern could mistake for a second
`#E<n> = <cap>[<input>]` assignment (`tailSafe`).  Descriptions and inputs
may freely contain `#`, in particular `#E` evidence references. -/
def wfClause (cl : ClauseSrc) : Bool :=
  !cl.d.isEmpty && cl.d.all (fun ch => ch != '\n') &&
  headNonWs cl.d && headNonWs cl.d.reverse &&
  !cl.num.isEmpty && cl.num.all isDigitCh &&
  !cl.c.isEmpty && cl.c.all isWordChar &&
  !cl.inp.isEmpty && cl.inp.all (fun ch => ch != ']') &&
  tailSafe cl

/-- The full clause text `Plan: <d> #E<num> = <c>[<inp>]`. -/
def mkClause (cl : ClauseSrc) : Str :=
  'P' :: 'l' :: 'a' :: 'n' :: ':' :: ' ' :: (cl.d ++ ' ' :: clauseTail cl)

/-- Clauses joined by single newlines: the canonical concatenated PlanText. -/
def catClauses (cls : List ClauseSrc) : Str :=
  joinWith ['\n'] (cls.map mkClause)

/-- The step the regex captures from a well-formed clause.  The greedy
`(.+)` keeps the blank before `#E`, so the captured description is
`d ++ " "`. -/
def stepOf (cl : ClauseSrc) : PStep :=
  ⟨cl.d ++ [' '], '#' :: 'E' :: cl.num, cl.c, cl.inp⟩

/-- After skipping whitespace the text does not continue with `#`; from such
a position the tail of the pattern cannot match. -/
def tailBlocked (s : Str) : Bool :=
  (s.dropWhile isWs).head?.all (fun ch => ch != '#')

theorem expectChar_cons_self (c : Char) (xs : Str) : expectChar c (c :: xs) = some xs := by
  simp [expectChar]

theorem matchTail_blocked {s : Str} (h : tailBlocked s = true) : matchTail s = none := by
  unfold matchTail
  cases hds : s.dropWhile isWs with
  | nil => simp [expectChar]
  | cons ch t =>
    rw [tailBlocked, hds] at h
    simp only [List.head?_cons, Option.all_some, bne_iff_ne, decide_eq_true_eq] at h
    have : expectChar '#' (ch :: t) = none := by
      simp [expectChar, h]
    rw [this]
    simp

theorem tailBlocked_nil : tailBlocked [] = true := rfl

/-- Appending extra text after a `]` cannot change whether the tail pattern
matches: a candidate match must close its bracket group at the first `]`
available, so the scan is settled inside `u`, and only the leftover rest of
the text gains the appended suffix. -/
theorem matchTail_append (u sfx : Str) (hu : ']' ∈ u) :
    matchTail (u ++ sfx) =
      (matchTail u).map (fun g => (g.1, g.2.1, g.2.2.1, g.2.2.2 ++ sfx)) := by
  have e0 : (u ++ sfx).dropWhile isWs = u.dropWhile isWs ++ sfx :=
    dropWhile_append_stop sfx hu (by decide)
  have hm1 : ']' ∈ u.dropWhile isWs := mem_dropWhile_of_pred_false hu (by decide)
  unfold matchTail
  rw [e0]
  cases h1 : u.dropWhile isWs with
  | nil => rw [h1] at hm1; simp at hm1
  | cons x xs =>
    rw [h1] at hm1
    by_cases hx : x = '#'
    · subst hx
      rw [List.cons_append, expectChar_cons_self, expectChar_cons_self,
        Option.some_bind, Option.some_bind]
      have hm2 : ']' ∈ xs := by
        rcases List.mem_cons.mp hm1 with h | h
        · exact absurd h (by decide)
        · exact h
      cases h2 : xs with
      | nil => rw [h2] at hm2; simp at hm2
      | cons y ys =>
        rw [h2] at hm2
        by_cases hy : y = 'E'
        · subst hy
          rw [List.cons_append, expectChar_cons_self, expectChar_cons_self,
            Option.some_bind, Option.some_bind]
          have hm3 : ']' ∈ ys := by
            rcases List.mem_cons.mp hm2 with h | h
            · exact absurd h (by decide)
            · exact h
          have eTd : (ys ++ sfx).takeWhile isDigitCh = ys.takeWhile isDigitCh :=
            takeWhile_append_stop sfx hm3 (by decide)
          rw [eTd]
          by_cases hdig : ys.takeWhile isDigitCh = []
          · rw [if_pos hdig, if_pos hdig]
            rfl
          · rw [if_neg hdig, if_neg hdig]
            have eDd : (ys ++ sfx).dropWhile isDigitCh = ys.dropWhile isDigitCh ++ sfx :=
              dropWhile_append_stop sfx hm3 (by decide)
            have hm4 : ']' ∈ ys.dropWhile isDigitCh :=
              mem_dropWhile_of_pred_false hm3 (by decide)
            have eDw : (ys.dropWhile isDigitCh ++ sfx).dropWhile isWs =
                (ys.dropWhile isDigitCh).dropWhile isWs ++ sfx :=
              dropWhile_append_stop sfx hm4 (by decide)
            have hm5 : ']' ∈ (ys.dropWhile isDigitCh).dropWhile isWs :=
              mem_dropWhile_of_pred_false hm4 (by decide)
            rw [eDd, eDw]
            cases h5 : (ys.dropWhile isDigitCh).dropWhile isWs with
            | nil => rw [h5] at hm5; simp at hm5
            | cons z zs =>
              rw [h5] at hm5
              by_cases hz : z = '='
              · subst hz
                rw [List.cons_append, expectChar_cons_self, expectChar_cons_self,
                  Option.some_bind, Option.some_bind]
                have hm6 : ']' ∈ zs := by
                  rcases List.mem_cons.mp hm5 with h | h
                  · exact absurd h (by decide)
                  · exact h
                have eW6 : (zs ++ sfx).dropWhile isWs = zs.dropWhile isWs ++ sfx :=
                  dropWhile_append_stop sfx hm6 (by decide)
                have hm7 : ']' ∈ zs.dropWhile isWs :=
                  mem_dropWhile_of_pred_false hm6 (by decide)
                have eTw : (zs.dropWhile isWs ++ sfx).takeWhile isWordChar =
                    (zs.dropWhile isWs).takeWhile isWordChar :=
                  takeWhile_append_stop sfx hm7 (by decide)
                simp only [eW6, eTw]
                by_cases hw : (zs.dropWhile isWs).takeWhile isWordChar = []
                · rw [if_pos hw, if_pos hw]
                  rfl
                · rw [if_neg hw, if_neg hw]
                  have eDw2 : (zs.dropWhile isWs ++ sfx).dropWhile isWordChar =
                      (zs.dropWhile isWs).dropWhile isWordChar ++ sfx :=
                    dropWhile_append_stop sfx hm7 (by decide)
                  have hm8 : ']' ∈ (zs.dropWhile isWs).dropWhile isWordChar :=
                    mem_dropWhile_of_pred_false hm7 (by decide)
                  have eDw3 : ((zs.dropWhile isWs).dropWhile isWordChar ++ sfx).dropWhile isWs =
                      ((zs.dropWhile isWs).dropWhile isWordChar).dropWhile isWs ++ sfx :=
                    dropWhile_append_stop sfx hm8 (by decide)
                  have hm9 : ']' ∈ ((zs.dropWhile isWs).dropWhile isWordChar).dropWhile isWs :=
                    mem_dropWhile_of_pred_false hm8 (by decide)
                  rw [eDw2, eDw3]
                  cases h9 : ((zs.dropWhile isWs).dropWhile isWordChar).dropWhile isWs with
                  | nil => rw [h9] at hm9; simp at hm9
                  | cons b bs =>
                    rw [h9] at hm9
                    by_cases hb : b = '['
                    · subst hb
                      rw [List.cons_append, expectChar_cons_self, expectChar_cons_self,
                        Option.some_bind, Option.some_bind]
                      have hm10 : ']' ∈ bs := by
                        rcases List.mem_cons.mp hm9 with h | h
                        · exact absurd h (by decide)
                        · exact h
                      have eTi : (bs ++ sfx).takeWhile (fun ch => ch != ']') =
                          bs.takeWhile (fun ch => ch != ']') :=
                        takeWhile_append_stop sfx hm10 (by decide)
                      rw [eTi]
                      by_cases hinp : bs.takeWhile (fun ch => ch != ']') = []
                      · rw [if_pos hinp, if_pos hinp]
                        rfl
                      · rw [if_neg hinp, if_neg hinp]
                        have eDi : (bs ++ sfx).dropWhile (fun ch => ch != ']') =
                            bs.dropWhile (fun ch => ch != ']') ++ sfx :=
                          dropWhile_append_stop sfx hm10 (by decide)
                        rw [eDi]
                        cases h11 : bs.dropWhile (fun ch => ch != ']') with
                        | nil =>
                          have hmm :=
                            @mem_dropWhile_of_pred_false _ (fun ch => ch != ']') ']' bs
                              hm10 (by decide)
                          rw [h11] at hmm
                          simp at hmm
                        | cons q qs =>
                          have hq : (fun ch => ch != ']') q = false :=
                            @dropWhile_head_pred_false _ (fun ch => ch != ']') bs q qs h11
                          have hq' : q = ']' := by simpa using hq
                          subst hq'
                          rw [List.cons_append, expectChar_cons_self, expectChar_cons_self,
                            Option.some_bind, Option.some_bind]
                          rfl
                    · have eL : expectChar '[' (b :: (bs ++ sfx)) = none := by
                        simp [expectChar, hb]
                      have eR : expectChar '[' (b :: bs) = none := by
                        simp [expectChar, hb]
                      rw [List.cons_append, eL, eR]
                      rfl
              · have eL : expectChar '=' (z :: (zs ++ sfx)) = none := by
                  simp [expectChar, hz]
                have eR : expectChar '=' (z :: zs) = none := by
                  simp [expectChar, hz]
                rw [List.cons_append, eL, eR]
                rfl
        · have eL : expectChar 'E' (y :: (ys ++ sfx)) = none := by
            simp [expectChar, hy]
          have eR : expectChar 'E' (y :: ys) = none := by
            simp [expectChar, hy]
          rw [List.cons_append, eL, eR]
          rfl
    · have eL : expectChar '#' (x :: (xs ++ sfx)) = none := by
        simp [expectChar, hx]
      have eR : expectChar '#' (x :: xs) = none := by
        simp [expectChar, hx]
      rw [List.cons_append, eL, eR]
      rfl

/-- The clause tail reshaped to expose its final closing bracket. -/
theorem clauseTail_shape (cl : ClauseSrc) :
    clauseTail cl =
      ('#' :: 'E' :: (cl.num ++ ' ' :: '=' :: ' ' :: (cl.c ++ '[' :: cl.inp))) ++ [']'] := by
  simp [clauseTail]

theorem mem_rbracket_clauseTail_drop {cl : ClauseSrc} {k : Nat}
    (hk : k < (clauseTail cl).length) : ']' ∈ (clauseTail cl).drop k := by
  rw [clauseTail_shape] at hk ⊢
  rw [List.length_append, List.length_singleton] at hk
  rw [drop_append_le _ _ k (by omega)]
  simp

/-- Reading of the `tailSafe` check: the tail pattern fails at every proper
interior position of the clause tail. -/
theorem tailSafe_spec {cl : ClauseSrc} (h : tailSafe cl = true) :
    ∀ k, 1 ≤ k → k < (clauseTail cl).length →
      matchTail ((clauseTail cl).drop k) = none := by
  intro k hk1 hk2
  rw [tailSafe, List.all_eq_true] at h
  have hk := h k (List.mem_range.mpr hk2)
  rw [Bool.or_eq_true] at hk
  rcases hk with h0 | hn
  · have : k = 0 := by simpa using h0
    omega
  · exact Option.isNone_iff_eq_none.mp hn

/-- Descending description search: positions above `p0` all fail. -/
theorem tryDescLens_down (s : Str) (p0 : Nat) :
    ∀ k, (∀ j, p0 < j → j ≤ p0 + k → matchTail (s.drop j) = none) →
      tryDescLens s (p0 + k) = tryDescLens s p0
  | 0, _ => rfl
  | k + 1, hall => by
    have h1 : matchTail (s.drop (p0 + k + 1)) = none := hall _ (by omega) (by omega)
    have : tryDescLens s (p0 + (k + 1)) = tryDescLens s (p0 + k) := by
      show tryDescLens s ((p0 + k) + 1) = tryDescLens s (p0 + k)
      simp only [tryDescLens, h1]
    rw [this]
    exact tryDescLens_down s p0 k (fun j hj1 hj2 => hall j hj1 (by omega))

theorem tryDescLens_hit {s : Str} {p0 : Nat} {v w i r : Str}
    (h : matchTail (s.drop (p0 + 1)) = some (v, w, i, r)) :
    tryDescLens s (p0 + 1) = some (s.take (p0 + 1), v, w, i, r) := by
  simp only [tryDescLens, h]

theorem matchTail_clause (num c inp sfx : Str)
    (hnum1 : num ≠ []) (hnum2 : ∀ ch ∈ num, isDigitCh ch = true)
    (hc1 : c ≠ []) (hc2 : ∀ ch ∈ c, isWordChar ch = true)
    (hinp1 : inp ≠ []) (hinp2 : ∀ ch ∈ inp, (ch != ']') = true) :
    matchTail ('#' :: 'E' :: (num ++ ' ' :: '=' :: ' ' :: (c ++ '[' :: (inp ++ ']' :: sfx)))) =
      some ('#' :: 'E' :: num, c, inp, sfx) := by
  obtain ⟨cc, c', rfl⟩ : ∃ cc c', c = cc :: c' := by
    cases c with
    | nil => exact absurd rfl hc1
    | cons cc c' => exact ⟨cc, c', rfl⟩
  have h0 : List.dropWhile isWs
      ('#' :: 'E' :: (num ++ ' ' :: '=' :: ' ' :: ((cc :: c') ++ '[' :: (inp ++ ']' :: sfx)))) =
      '#' :: 'E' :: (num ++ ' ' :: '=' :: ' ' :: ((cc :: c') ++ '[' :: (inp ++ ']' :: sfx))) :=
    dropWhile_head_false (by decide)
  have hdig : (num ++ ' ' :: '=' :: ' ' :: ((cc :: c') ++ '[' :: (inp ++ ']' :: sfx))).takeWhile isDigitCh = num := by
    rw [takeWhile_append_all num _ hnum2, takeWhile_head_false (by decide : isDigitCh ' ' = false),
      List.append_nil]
  have hdropd : (num ++ ' ' :: '=' :: ' ' :: ((cc :: c') ++ '[' :: (inp ++ ']' :: sfx))).dropWhile isDigitCh =
      ' ' :: '=' :: ' ' :: ((cc :: c') ++ '[' :: (inp ++ ']' :: sfx)) := by
    rw [dropWhile_append_all num _ hnum2, dropWhile_head_false (by decide : isDigitCh ' ' = false)]
  have hws1 : List.dropWhile isWs (' ' :: '=' :: ' ' :: ((cc :: c') ++ '[' :: (inp ++ ']' :: sfx))) =
      '=' :: ' ' :: ((cc :: c') ++ '[' :: (inp ++ ']' :: sfx)) := by
    rw [List.dropWhile_cons, if_pos (by decide : isWs ' ' = true),
      dropWhile_head_false (by decide : isWs '=' = false)]
  have hccw : isWordChar cc = true := hc2 cc (by simp)
  have hws2 : List.dropWhile isWs (' ' :: ((cc :: c') ++ '[' :: (inp ++ ']' :: sfx))) =
      (cc :: c') ++ '[' :: (inp ++ ']' :: sfx) := by
    rw [List.dropWhile_cons, if_pos (by decide : isWs ' ' = true), List.cons_append,
      dropWhile_head_false (isWordChar_not_ws hccw)]
  have hw : ((cc :: c') ++ '[' :: (inp ++ ']' :: sfx)).takeWhile isWordChar = cc :: c' := by
    rw [takeWhile_append_all _ _ hc2, takeWhile_head_false (by decide : isWordChar '[' = false),
      List.append_nil]
  have hdropw : ((cc :: c') ++ '[' :: (inp ++ ']' :: sfx)).dropWhile isWordChar =
      '[' :: (inp ++ ']' :: sfx) := by
    rw [dropWhile_append_all _ _ hc2, dropWhile_head_false (by decide : isWordChar '[' = false)]
  have hws3 : List.dropWhile isWs ('[' :: (inp ++ ']' :: sfx)) = '[' :: (inp ++ ']' :: sfx) :=
    dropWhile_head_false (by decide)
  have hinpw : (inp ++ ']' :: sfx).takeWhile (fun ch => ch != ']') = inp := by
    rw [takeWhile_append_all inp _ hinp2,
      @takeWhile_head_false _ (fun ch => ch != ']') ']' sfx (by decide), List.append_nil]
  have hdropi : (inp ++ ']' :: sfx).dropWhile (fun ch => ch != ']') = ']' :: sfx := by
    rw [dropWhile_append_all inp _ hinp2,
      @dropWhile_head_false _ (fun ch => ch != ']') ']' sfx (by decide)]
  unfold matchTail
  rw [h0, expectChar_cons_self, Option.some_bind, expectChar_cons_self, Option.some_bind]
  simp only [hdig, hdropd, hws1, hws2, hw, hdropw, hws3, hinpw, hdropi,
    expectChar_cons_self, Option.some_bind, if_neg hnum1, if_neg hc1, if_neg hinp1]

theorem drop_drop_own {α} : ∀ (l : List α) (m n : Nat), (l.drop m).drop n = l.drop (m + n)
  | l, 0, n => by simp
  | [], m + 1, n => by simp
  | x :: l, m + 1, n => by
    simp only [List.drop_succ_cons, Nat.succ_add]
    exact drop_drop_own l m n

theorem drop_append_self {α} (xs ys : List α) : (xs ++ ys).drop xs.length = ys := by
  have h := drop_append_len xs ys 0
  simp only [Nat.add_zero, List.drop_zero] at h
  exact h

theorem take_drop_shape {α} (xs ys : List α) :
    (xs ++ ys).take xs.length = xs := take_append_len xs ys

theorem matchAfterPlan_clause (cl : ClauseSrc) (sfx : Str)
    (hwf : wfClause cl = true) (hsfx : tailBlocked sfx = true)
    (hline : sfx.head?.all (fun ch => ch == '\n') = true) :
    matchAfterPlan (' ' :: ((cl.d ++ ' ' :: clauseTail cl) ++ sfx)) =
      some (cl.d ++ [' '], '#' :: 'E' :: cl.num, cl.c, cl.inp, sfx) := by
  simp only [wfClause, Bool.and_eq_true] at hwf
  obtain ⟨⟨⟨⟨⟨⟨⟨⟨⟨⟨hd1, hd2⟩, hd3⟩, hd4⟩, hn1⟩, hn2⟩, hc1⟩, hc2⟩, hi1⟩, hi2⟩, hsafe⟩ := hwf
  rw [List.all_eq_true] at hd2 hn2 hc2 hi2
  have hd1' : cl.d ≠ [] := by intro h; rw [h] at hd1; simp at hd1
  have hn1' : cl.num ≠ [] := by intro h; rw [h] at hn1; simp at hn1
  have hc1' : cl.c ≠ [] := by intro h; rw [h] at hc1; simp at hc1
  have hi1' : cl.inp ≠ [] := by intro h; rw [h] at hi1; simp at hi1
  obtain ⟨dh, d', hD⟩ : ∃ dh d', cl.d = dh :: d' := by
    cases hd0 : cl.d with
    | nil => exact absurd hd0 hd1'
    | cons a b => exact ⟨a, b, rfl⟩
  have hdh : isWs dh = false := by
    rw [headNonWs, hD] at hd3
    simpa using hd3
  have hEmptyTake : sfx.takeWhile (fun ch => ch != '\n') = [] := by
    cases sfx with
    | nil => rfl
    | cons x t =>
      simp only [List.head?_cons, Option.all_some, beq_iff_eq] at hline
      subst hline
      exact @takeWhile_head_false _ (fun ch => ch != '\n') '\n' t (by decide)
  have hTailTake : (clauseTail cl ++ sfx).takeWhile (fun ch => ch != '\n') =
      (clauseTail cl).takeWhile (fun ch => ch != '\n') := by
    by_cases hnl : ∃ a ∈ clauseTail cl, ((a != '\n') : Bool) = false
    · obtain ⟨a, ham, haf⟩ := hnl
      exact takeWhile_append_stop sfx ham haf
    · push_neg at hnl
      have hall : ∀ a ∈ clauseTail cl, (a != '\n') = true := by
        intro a ham
        rcases Bool.eq_false_or_eq_true (a != '\n') with ht | hf
        · exact ht
        · exact absurd hf (hnl a ham)
      rw [takeWhile_append_all _ _ hall, hEmptyTake, List.append_nil,
        takeWhile_all_pass _ hall]
  have htw : (' ' :: ((cl.d ++ ' ' :: clauseTail cl) ++ sfx)).takeWhile isWs = [' '] := by
    rw [List.takeWhile_cons, if_pos (by decide : isWs ' ' = true), hD]
    simp only [List.cons_append]
    rw [takeWhile_head_false hdh]
  have e1 : (cl.d ++ ' ' :: clauseTail cl) ++ sfx =
      (cl.d ++ [' ']) ++ (clauseTail cl ++ sfx) := by simp
  have e2 : (cl.d ++ [' ']).length = cl.d.length + 1 := by simp
  have hdropP0 : ((cl.d ++ ' ' :: clauseTail cl) ++ sfx).drop (cl.d.length + 1) =
      clauseTail cl ++ sfx := by
    rw [e1, ← e2, drop_append_self]
  have hshape : clauseTail cl ++ sfx =
      '#' :: 'E' :: (cl.num ++ ' ' :: '=' :: ' ' :: (cl.c ++ '[' :: (cl.inp ++ ']' :: sfx))) := by
    simp [clauseTail]
  have hmt : matchTail (((cl.d ++ ' ' :: clauseTail cl) ++ sfx).drop (cl.d.length + 1)) =
      some ('#' :: 'E' :: cl.num, cl.c, cl.inp, sfx) := by
    rw [hdropP0, hshape]
    exact matchTail_clause _ _ _ _ hn1' hn2 hc1' hc2 hi1' (fun ch hm => hi2 ch hm)
  have hblocked : ∀ j, cl.d.length + 1 < j →
      j ≤ (cl.d.length + 1) + ((clauseTail cl).takeWhile (fun ch => ch != '\n')).length →
      matchTail (((cl.d ++ ' ' :: clauseTail cl) ++ sfx).drop j) = none := by
    intro j hj1 hj2
    have hjle : ((clauseTail cl).takeWhile (fun ch => ch != '\n')).length ≤
        (clauseTail cl).length := takeWhile_length_le _
    obtain ⟨k', rfl⟩ : ∃ k', j = (cl.d.length + 1) + k' :=
      ⟨j - (cl.d.length + 1), by omega⟩
    have hk1 : 1 ≤ k' := by omega
    have hk2 : k' ≤ (clauseTail cl).length := by omega
    have ht : ((cl.d ++ ' ' :: clauseTail cl) ++ sfx).drop ((cl.d.length + 1) + k') =
        (clauseTail cl).drop k' ++ sfx := by
      rw [e1, ← e2, drop_append_len]
      exact drop_append_le _ sfx k' hk2
    rw [ht]
    rcases Nat.lt_or_ge k' (clauseTail cl).length with hlt | hge
    · have hnone := tailSafe_spec hsafe k' hk1 hlt
      have hmem := mem_rbracket_clauseTail_drop hlt
      rw [matchTail_append _ sfx hmem, hnone]
      rfl
    · have hk : k' = (clauseTail cl).length := by omega
      rw [hk, List.drop_length, List.nil_append]
      exact matchTail_blocked hsfx
  have hdesc : tryDescAt (' ' :: ((cl.d ++ ' ' :: clauseTail cl) ++ sfx)) 1 =
      some (cl.d ++ [' '], '#' :: 'E' :: cl.num, cl.c, cl.inp, sfx) := by
    rw [tryDescAt]
    have hdrop1 : (' ' :: ((cl.d ++ ' ' :: clauseTail cl) ++ sfx)).drop 1 =
        (cl.d ++ ' ' :: clauseTail cl) ++ sfx := rfl
    rw [hdrop1]
    have hDNoNl : ∀ ch ∈ cl.d ++ [' '], ((ch != '\n') : Bool) = true := by
      intro ch hm
      rcases List.mem_append.mp hm with hm | hm
      · exact hd2 ch hm
      · simp only [List.mem_singleton] at hm
        subst hm
        decide
    have hlineTake : ((cl.d ++ ' ' :: clauseTail cl) ++ sfx).takeWhile (fun ch => ch != '\n') =
        (cl.d ++ [' ']) ++ (clauseTail cl).takeWhile (fun ch => ch != '\n') := by
      rw [e1, takeWhile_append_all _ _ hDNoNl, hTailTake]
    rw [hlineTake]
    have hlen : ((cl.d ++ [' ']) ++ (clauseTail cl).takeWhile (fun ch => ch != '\n')).length =
        (cl.d.length + 1) + ((clauseTail cl).takeWhile (fun ch => ch != '\n')).length := by
      simp only [List.length_append, List.length_singleton]
    rw [hlen]
    rw [tryDescLens_down _ (cl.d.length + 1) _ hblocked]
    rw [tryDescLens_hit hmt]
    have htake : ((cl.d ++ ' ' :: clauseTail cl) ++ sfx).take (cl.d.length + 1) =
        cl.d ++ [' '] := by
      rw [e1, ← e2, take_append_len]
    rw [htake]
  unfold matchAfterPlan
  rw [htw]
  simp only [List.length_singleton]
  simp only [tryWs, hdesc]

/-! Section: Decimal numerals, clause concatenation, trimming -/

/-- Decimal digits of `n` (fuel-based so the kernel can evaluate it). -/
def natStrF : Nat → Nat → Str
  | 0, _ => []
  | fuel + 1, n =>
    if n < 10 then [Char.ofNat (48 + n)]
    else natStrF fuel (n / 10) ++ [Char.ofNat (48 + n % 10)]

/-- Standard decimal spelling of a natural number. -/
def natStr (n : Nat) : Str := natStrF (n + 1) n

theorem digitChar_isDigit (k : Nat) (hk : k < 10) :
    isDigitCh (Char.ofNat (48 + k)) = true := by
  interval_cases k <;> decide

theorem natStrF_all_digit : ∀ (fuel n : Nat), n < fuel →
    ∀ ch ∈ natStrF fuel n, isDigitCh ch = true := by
  intro fuel
  induction fuel with
  | zero => intro n h; omega
  | succ fuel ih =>
    intro n hn ch hch
    rw [natStrF] at hch
    split at hch
    · rename_i h10
      simp only [List.mem_singleton] at hch
      subst hch
      exact digitChar_isDigit n h10
    · rename_i h10
      rcases List.mem_append.mp hch with hm | hm
      · exact ih (n / 10) (by omega) ch hm
      · simp only [List.mem_singleton] at hm
        subst hm
        exact digitChar_isDigit (n % 10) (Nat.mod_lt n (by omega))

theorem natStrF_ne_nil : ∀ (fuel n : Nat), n < fuel → natStrF fuel n ≠ [] := by
  intro fuel
  cases fuel with
  | zero => intro n h; omega
  | succ fuel =>
    intro n hn
    rw [natStrF]
    split
    · simp
    · simp

theorem natStr_all_digit (n : Nat) : ∀ ch ∈ natStr n, isDigitCh ch = true :=
  natStrF_all_digit (n + 1) n (Nat.lt_succ_self n)

theorem natStr_ne_nil (n : Nat) : natStr n ≠ [] :=
  natStrF_ne_nil (n + 1) n (Nat.lt_succ_self n)

example : natStr 1 = ['1'] := by decide
example : natStr 12 = ['1', '2'] := by decide

theorem catClauses_nil : catClauses [] = [] := rfl

theorem catClauses_single (cl : ClauseSrc) : catClauses [cl] = mkClause cl := rfl

theorem catClauses_cons (cl : ClauseSrc) (cls : List ClauseSrc) (h : cls ≠ []) :
    catClauses (cl :: cls) = mkClause cl ++ '\n' :: catClauses cls := by
  rw [catClauses, List.map_cons, joinWith_cons_of_ne_nil _ _ (by simpa using h)]
  rw [catClauses]
  simp

theorem catClauses_head_P (cls : List ClauseSrc) (h : cls ≠ []) :
    ∃ t, catClauses cls = 'P' :: t := by
  cases cls with
  | nil => exact absurd rfl h
  | cons cl cls =>
    cases cls with
    | nil => exact ⟨_, rfl⟩
    | cons cl2 cls2 =>
      rw [catClauses_cons _ _ (by simp)]
      exact ⟨_, rfl⟩

/-- Python `str.strip()`. -/
def trimStr (s : Str) : Str := ((s.dropWhile isWs).reverse.dropWhile isWs).reverse

/-- Trimming the captured description (which ends in the blank swallowed by
the greedy `(.+)`) recovers the clause's own description. -/
theorem trimStr_desc (d : Str) (h1 : headNonWs d = true) (h2 : headNonWs d.reverse = true) :
    trimStr (d ++ [' ']) = d := by
  cases hd : d with
  | nil => rfl
  | cons dh d' =>
    have hdh : isWs dh = false := by
      rw [headNonWs, hd] at h1
      simpa using h1
    rw [trimStr, List.cons_append, dropWhile_head_false hdh]
    have hrev : (dh :: (d' ++ [' '])).reverse = ' ' :: (dh :: d').reverse := by
      rw [show dh :: (d' ++ [' ']) = (dh :: d') ++ [' '] by simp]
      rw [List.reverse_append]
      rfl
    rw [hrev, List.dropWhile_cons, if_pos (by decide : isWs ' ' = true)]
    obtain ⟨rh, rt, hr⟩ : ∃ rh rt, (dh :: d').reverse = rh :: rt := by
      cases hre : (dh :: d').reverse with
      | nil =>
        have : (dh :: d').length = 0 := by
          rw [← List.length_reverse, hre]; rfl
        simp at this
      | cons a b => exact ⟨a, b, rfl⟩
    have hrh : isWs rh = false := by
      rw [headNonWs, hd, hr] at h2
      simpa using h2
    rw [hr, dropWhile_head_false hrh, ← hr, List.reverse_reverse]

theorem findPlans_clause (cl : ClauseSrc) (sfx : Str)
    (hwf : wfClause cl = true) (hsfx : tailBlocked sfx = true)
    (hline : sfx.head?.all (fun ch => ch == '\n') = true) :
    findPlans (mkClause cl ++ sfx) = stepOf cl :: findPlans sfx := by
  have hfull : mkClause cl ++ sfx =
      'P' :: 'l' :: 'a' :: 'n' :: ':' :: (' ' :: ((cl.d ++ ' ' :: clauseTail cl) ++ sfx)) := by
    simp [mkClause]
  rw [hfull]
  have hpre : ("Plan:".toList).isPrefixOf
      ('P' :: 'l' :: 'a' :: 'n' :: ':' :: (' ' :: ((cl.d ++ ' ' :: clauseTail cl) ++ sfx))) = true :=
    List.isPrefixOf_iff_prefix.mpr ⟨' ' :: ((cl.d ++ ' ' :: clauseTail cl) ++ sfx), rfl⟩
  have hm : matchAfterPlan
      (('P' :: 'l' :: 'a' :: 'n' :: ':' :: (' ' :: ((cl.d ++ ' ' :: clauseTail cl) ++ sfx))).drop 5) =
      some (cl.d ++ [' '], '#' :: 'E' :: cl.num, cl.c, cl.inp, sfx) :=
    matchAfterPlan_clause cl sfx hwf hsfx hline
  rw [findPlans_cons_plan hpre hm]
  rfl

theorem plan_not_prefix_newline (cs : Str) :
    ("Plan:".toList).isPrefixOf ('\n' :: cs) = false := by
  have h5 : "Plan:".toList = 'P' :: 'l' :: 'a' :: 'n' :: ':' :: [] := rfl
  rw [h5]
  simp only [List.isPrefixOf]
  rw [show (('P' : Char) == '\n') = false by decide, Bool.false_and]

theorem findPlans_cat : ∀ (cls : List ClauseSrc), (∀ cl ∈ cls, wfClause cl = true) →
    findPlans (catClauses cls) = cls.map stepOf
  | [], _ => rfl
  | [cl], h => by
    rw [catClauses_single, ← List.append_nil (mkClause cl),
      findPlans_clause cl [] (h cl (by simp)) tailBlocked_nil (by simp)]
    rfl
  | cl :: cl2 :: cls, h => by
    have hne : (cl2 :: cls : List ClauseSrc) ≠ [] := by simp
    obtain ⟨t, ht⟩ := catClauses_head_P (cl2 :: cls) hne
    have hsfx : tailBlocked ('\n' :: catClauses (cl2 :: cls)) = true := by
      rw [ht, tailBlocked, List.dropWhile_cons, if_pos (by decide : isWs '\n' = true),
        dropWhile_head_false (by decide : isWs 'P' = false)]
      simp
    have hline : ('\n' :: catClauses (cl2 :: cls)).head?.all (fun ch => ch == '\n') = true := by
      simp
    rw [catClauses_cons _ _ hne,
      findPlans_clause cl _ (h cl (by simp)) hsfx hline]
    rw [ht, findPlans_cons_skip (plan_not_prefix_newline ('P' :: t)), ← ht]
    rw [findPlans_cat (cl2 :: cls) (fun c hm => h c (List.mem_cons_of_mem _ hm))]
    rfl

/-! Section: Orchestration state, dispatch, control loop (`graph.py`)

External collaborators (the chat model behind `llm`, the Tavily search tool
behind `search`, and the planner chain `prompt_template | llm`) are opaque
services; they are modelled as total oracle functions bundled in `Collab`.
`search_invoke` stands for `str(search.invoke(q))`, the serialized search
result.  `llm_invoke` returns a chat message; the code stores `str(result)`
of that message object — `pyStrOfMessage` below renders the pydantic
string form `content='...' additional_kwargs={} response_metadata={}` of a
message whose extra fields are at their defaults and whose content needs no
`repr` escaping. -/

/-- The `ReWOO` typed state dict.  `results = none` models the `results`
key being absent or `None`; the dict is an insertion-ordered association
list, as a Python dict is. -/
structure ReWOO where
  task : Str
  plan_string : Str
  steps : List PStep
  results : Option (List (Str × Str))
  result : Str
deriving DecidableEq, Repr

/-- A chat-model reply (`AIMessage`): only the text content is relevant. -/
structure AIMessage where
  content : Str
deriving DecidableEq, Repr

/-- Python `str()` of an `AIMessage` whose non-content fields hold their defaults:
the pydantic rendering, not the bare content. -/
def pyStrOfMessage (m : AIMessage) : Str :=
  "content='".toList ++ m.content ++
    "' additional_kwargs=\x7b\x7d response_metadata=\x7b\x7d".toList

/-- The external collaborators. -/
structure Collab where
  llm_invoke : Str → AIMessage
  search_invoke : Str → Str
  planner_invoke : Str → Str

/-- Errors the engine can raise. -/
inductive PyError
  | indexError
  | valueError
  | typeError
deriving DecidableEq, Repr

/-- Assignment `dict[k] = v` on an insertion-ordered association list: an existing key
keeps its position and is overwritten, a new key is appended. -/
def dictInsert (dct : List (Str × Str)) (k v : Str) : List (Str × Str) :=
  if dct.any (fun p => p.1 == k) then
    dct.map (fun p => if p.1 == k then (k, v) else p)
  else dct ++ [(k, v)]

/-- The expression `(state["results"] or {}) if "results" in state else {}`. -/
def resultsList (st : ReWOO) : List (Str × Str) :=
  match st.results with
  | none => []
  | some r => r

/-- The variable-substitution engine:
`for k, v in results.items(): text = text.replace(k, v)`. -/
def applySubst (results : List (Str × Str)) (text : Str) : Str :=
  results.foldl (fun t kv => strReplace t kv.1 kv.2) text

def _get_current_task (st : ReWOO) : Option Nat :=
  match st.results with
  | none => some 1
  | some results =>
    if results.length = st.steps.length then none
    else some (results.length + 1)

/-- The planner prompt with `{task}` substituted. -/
def planner_prompt_formatted (task : Str) : Str :=
  "\nFor the following task, make plans that can solve the problem step by step. For each plan, indicate which external tool together with tool input to retrieve evidence. You can store the evidence into a variable #E that can be called by later tools. (Plan, #E1, Plan, #E2, Plan, ...)\n\nTools can be one of the following:\n(1) Google[input]: Worker that searches results from Google. Useful when you need to find short and succinct answers about a specific topic. The input should be a search query.\n(2) LLM[input]: A pretrained LLM like yourself. Useful when you need to act with general world knowledge and common sense. Prioritize it when you are confident in solving the problem yourself. Input can be any instruction.\n\nFor example,\nTask: Thomas, Toby, and Rebecca worked a total of 157 hours in one week. Thomas worked x hours. Toby worked 10 hours less than twice what Thomas worked, and Rebecca worked 8 hours less than Toby. How many hours did Rebecca work?\nPlan: Given Thomas worked x hours, translate the problem into algebraic expressions and solve with Wolfram Alpha. #E1 = WolframAlpha[Solve x + (2x − 10) + ((2x − 10) − 8) = 157]\nPlan: Find out the number of hours Thomas worked. #E2 = LLM[What is x, given #E1]\nPlan: Calculate the number of hours Rebecca worked. #E3 = Calculator[(2 ∗ #E2 − 10) − 8]\n\nBegin! \nDescribe your plans with rich details. Each Plan should be followed by only one #E.\n\nTask: ".toList
  ++ task ++ "\n".toList

/-- Node `plan`: run the planner, parse the steps. -/
def get_plan (co : Collab) (st : ReWOO) : ReWOO :=
  let content := co.planner_invoke (planner_prompt_formatted st.task)
  { st with steps := findPlans content, plan_string := content }

/-- Node `tool`: execute the current step.  Exceptions become `Except`
errors: `None - 1` is a `TypeError`, `steps[_step - 1]` out of range is an
`IndexError`, an unknown tool name is the `raise ValueError`. -/
def tool_execution (co : Collab) (st : ReWOO) : Except PyError ReWOO :=
  match _get_current_task st with
  | none => .error .typeError
  | some k =>
    match st.steps.get? (k - 1) with
    | none => .error .indexError
    | some s =>
      let results0 := resultsList st
      let tool_input := applySubst results0 s.tool_input
      if s.tool = "Google".toList then
        .ok { st with
          results := some (dictInsert results0 s.step_name (co.search_invoke tool_input)) }
      else if s.tool = "LLM".toList then
        .ok { st with
          results := some (dictInsert results0 s.step_name (pyStrOfMessage (co.llm_invoke tool_input))) }
      else
        .error .valueError

/-- The solver prompt with `{plan}` and `{task}` substituted. -/
def solver_prompt_formatted (plan task : Str) : Str :=
  "\nSolve the following task or problem. To solve the problem, we have made step-by-step Plan and retrieved corresponding Evidence to each Plan. Use them with caution since long evidence might contain irrelevant information.\n\nPlan: ".toList
  ++ plan
  ++ "\n\nNow solve the question or task according to provided Evidence above. Respond with the answer directly with no extra words.\n\nTask: ".toList
  ++ task ++ "\nResponse:\n".toList

/-- One transcript line `f"Plan: {_plan}\n{step_name} = {tool}[{tool_input}]"`
with results substituted into `step_name` and `tool_input`. -/
def solvePlanLine (results0 : List (Str × Str)) (s : PStep) : Str :=
  "Plan: ".toList ++ s.plan ++ '\n' :: (applySubst results0 s.step_name)
    ++ " = ".toList ++ s.tool ++ '[' :: (applySubst results0 s.tool_input) ++ [']']

/-- The `plan` transcript accumulated by `solve`'s loop. -/
def solvePlanString (st : ReWOO) : Str :=
  st.steps.foldl (fun acc s => acc ++ solvePlanLine (resultsList st) s) []

/-- Node `solve`; the second component logs the prompts sent to the
text-generation collaborator, one entry per `llm.invoke` executed. -/
def solve (co : Collab) (st : ReWOO) : ReWOO × List Str :=
  let prompt := solver_prompt_formatted (solvePlanString st) st.task
  ({ st with result := (co.llm_invoke prompt).content }, [prompt])

def _route (st : ReWOO) : Str :=
  match _get_current_task st with
  | none => "solve".toList
  | some _ => "tool".toList

/-- Outcome of running the graph on one task. -/
inductive RunOutcome
  | finished (st : ReWOO) (stepsExecuted : Nat)
  | raised (e : PyError) (st : ReWOO) (stepsExecuted : Nat)
  | fuelOut
deriving DecidableEq, Repr

/-- The loop `tool → (_route) → tool | solve` of the compiled graph, with
the state as it stands when an exception is raised, and a count of the
successful step executions. -/
def runToolLoop (co : Collab) : Nat → ReWOO → Nat → RunOutcome
  | 0, _, _ => .fuelOut
  | fuel + 1, st, cnt =>
    match tool_execution co st with
    | .error e => .raised e st cnt
    | .ok st2 =>
      if _route st2 = "solve".toList then .finished (solve co st2).1 (cnt + 1)
      else runToolLoop co fuel st2 (cnt + 1)

/-- The initial state `{"task": task}`. -/
def initState (task : Str) : ReWOO :=
  { task := task, plan_string := [], steps := [], results := none, result := [] }

/-- The run `app.invoke({"task": task})`: START → plan → tool → (loop) → solve. -/
def appInvoke (co : Collab) (fuel : Nat) (task : Str) : RunOutcome :=
  runToolLoop co fuel (get_plan co (initState task)) 0

/-! Section: Control-loop lemmas -/

theorem get?_mem_own {α} : ∀ {L : List α} {j : Nat} {y : α}, L.get? j = some y → y ∈ L
  | x :: L, 0, y, h => by
    simp only [List.get?_cons_zero, Option.some.injEq] at h
    exact h ▸ List.mem_cons_self x L
  | x :: L, j + 1, y, h => List.mem_cons_of_mem x (get?_mem_own (by simpa using h))
  | [], j, y, h => by simp at h

theorem nodup_get_not_mem_take {α} :
    ∀ {L : List α} {j : Nat} {y : α}, L.Nodup → L.get? j = some y → y ∉ L.take j
  | x :: L, 0, y, _, _ => by simp
  | x :: L, j + 1, y, hnd, hg => by
    simp only [List.get?_cons_succ] at hg
    have hx : x ∉ L := (List.nodup_cons.mp hnd).1
    have hL : L.Nodup := (List.nodup_cons.mp hnd).2
    have hyL : y ∈ L := get?_mem_own hg
    have hyx : y ≠ x := fun he => hx (he ▸ hyL)
    simp only [List.take_succ_cons, List.mem_cons]
    push_neg
    exact ⟨hyx, nodup_get_not_mem_take hL hg⟩
  | [], j, y, _, hg => by simp at hg

theorem take_succ_of_get? {α} :
    ∀ {S : List α} {j : Nat} {s : α}, S.get? j = some s → S.take (j + 1) = S.take j ++ [s]
  | x :: S, 0, s, h => by
    simp only [List.get?_cons_zero, Option.some.injEq] at h
    subst h
    rfl
  | x :: S, j + 1, s, h => by
    simp only [List.get?_cons_succ] at h
    simp only [List.take_succ_cons, List.cons_append]
    rw [take_succ_of_get? h]
  | [], j, s, h => by simp at h

theorem any_keys_false {r : List (Str × Str)} {k : Str}
    (h : k ∉ r.map Prod.fst) : (r.any (fun p => p.1 == k)) = false := by
  rw [← Bool.not_eq_true]
  simp only [List.any_eq_true, beq_iff_eq]
  rintro ⟨p, hp, rfl⟩
  exact h (List.mem_map.mpr ⟨p, hp, rfl⟩)

theorem dictInsert_new {r : List (Str × Str)} {k v : Str}
    (h : k ∉ r.map Prod.fst) : dictInsert r k v = r ++ [(k, v)] := by
  rw [dictInsert, any_keys_false h]
  simp

/-- Behaviour of `tool_execution` on an explicit state: the three dispatch branches. -/
theorem tool_execution_step (co : Collab) (tk pls rs : Str) (S : List PStep)
    (r : List (Str × Str)) (k : Nat) (s : PStep)
    (hk : _get_current_task ⟨tk, pls, S, some r, rs⟩ = some k)
    (hs : S.get? (k - 1) = some s) :
    (s.tool = "Google".toList →
      tool_execution co ⟨tk, pls, S, some r, rs⟩ =
        .ok ⟨tk, pls, S,
          some (dictInsert r s.step_name (co.search_invoke (applySubst r s.tool_input))), rs⟩)
    ∧ (s.tool = "LLM".toList →
      tool_execution co ⟨tk, pls, S, some r, rs⟩ =
        .ok ⟨tk, pls, S,
          some (dictInsert r s.step_name (pyStrOfMessage (co.llm_invoke (applySubst r s.tool_input)))), rs⟩)
    ∧ (s.tool ≠ "Google".toList → s.tool ≠ "LLM".toList →
      tool_execution co ⟨tk, pls, S, some r, rs⟩ = .error .valueError) := by
  refine ⟨?_, ?_, ?_⟩
  · intro ht
    rw [tool_execution, hk]
    simp only [resultsList, hs, if_pos ht]
  · intro ht
    have hne : s.tool ≠ "Google".toList := by
      rw [ht]; decide
    rw [tool_execution, hk]
    simp only [resultsList, hs, if_neg hne, if_pos ht]
  · intro h1 h2
    rw [tool_execution, hk]
    simp only [resultsList, hs, if_neg h1, if_neg h2]

theorem runToolLoop_success :
    ∀ (m : Nat) (co : Collab) (tk pls rs : Str) (S : List PStep)
      (r : List (Str × Str)) (cnt : Nat),
      1 ≤ m → r.length + m = S.length →
      r.map Prod.fst = (S.take r.length).map PStep.step_name →
      (S.map PStep.step_name).Nodup →
      (∀ s ∈ S, s.tool = "Google".toList ∨ s.tool = "LLM".toList) →
      ∃ stF, runToolLoop co m ⟨tk, pls, S, some r, rs⟩ cnt = .finished stF (cnt + m) := by
  intro m
  induction m with
  | zero => intro co tk pls rs S r cnt h1 h2 hkeys hnd htools; omega
  | succ m ih =>
    intro co tk pls rs S r cnt h1 h2 hkeys hnd htools
    have hlt : r.length < S.length := by omega
    have hk : _get_current_task ⟨tk, pls, S, some r, rs⟩ = some (r.length + 1) := by
      simp only [_get_current_task]
      rw [if_neg (by omega : ¬ (r.length = S.length))]
    obtain ⟨s, hs⟩ : ∃ s, S.get? r.length = some s :=
      ⟨S.get ⟨r.length, hlt⟩, List.get?_eq_get hlt⟩
    have hs' : S.get? (r.length + 1 - 1) = some s := by simpa using hs
    have hmem : s ∈ S := get?_mem_own hs
    have hnot : s.step_name ∉ r.map Prod.fst := by
      rw [hkeys, List.map_take]
      exact nodup_get_not_mem_take hnd (by rw [List.get?_map, hs]; rfl)
    have hins : ∀ v, dictInsert r s.step_name v = r ++ [(s.step_name, v)] :=
      fun v => dictInsert_new hnot
    have hkeys' : ∀ v : Str, (r ++ [(s.step_name, v)]).map Prod.fst =
        (S.take (r.length + 1)).map PStep.step_name := by
      intro v
      rw [List.map_append, hkeys, take_succ_of_get? hs, List.map_append]
      rfl
    have hlen' : ∀ v : Str, (r ++ [(s.step_name, v)]).length = r.length + 1 := by
      intro v; simp
    obtain ⟨v, hexec⟩ : ∃ v, tool_execution co ⟨tk, pls, S, some r, rs⟩ =
        .ok ⟨tk, pls, S, some (r ++ [(s.step_name, v)]), rs⟩ := by
      rcases htools s hmem with ht | ht
      · exact ⟨_, by rw [(tool_execution_step co tk pls rs S r _ s hk hs').1 ht, hins]⟩
      · exact ⟨_, by rw [(tool_execution_step co tk pls rs S r _ s hk hs').2.1 ht, hins]⟩
    simp only [runToolLoop, hexec]
    by_cases hfin : r.length + 1 = S.length
    · have hroute : _route ⟨tk, pls, S, some (r ++ [(s.step_name, v)]), rs⟩ = "solve".toList := by
        simp only [_route, _get_current_task, hlen' v]
        rw [if_pos hfin]
      rw [hroute, if_pos rfl]
      have hm0 : m = 0 := by omega
      subst hm0
      exact ⟨_, rfl⟩
    · have hroute : _route ⟨tk, pls, S, some (r ++ [(s.step_name, v)]), rs⟩ = "tool".toList := by
        simp only [_route, _get_current_task, hlen' v]
        rw [if_neg hfin]
      rw [hroute, if_neg (by decide : ¬ ("tool".toList = "solve".toList))]
      have hm1 : 1 ≤ m := by omega
      obtain ⟨stF, hF⟩ := ih co tk pls rs S (r ++ [(s.step_name, v)]) (cnt + 1)
        hm1 (by rw [hlen' v]; omega) (by rw [hlen' v]; exact hkeys' v) hnd htools
      refine ⟨stF, ?_⟩
      rw [hF]
      congr 1
      omega

theorem runToolLoop_failure :
    ∀ (m : Nat) (co : Collab) (tk pls rs : Str) (S : List PStep)
      (r : List (Str × Str)) (cnt : Nat) (f : Nat) (sf : PStep),
      r.length ≤ f → r.length + m = f + 1 → f < S.length →
      r.map Prod.fst = (S.take r.length).map PStep.step_name →
      (S.map PStep.step_name).Nodup →
      (∀ i s, r.length ≤ i → i < f → S.get? i = some s →
        s.tool = "Google".toList ∨ s.tool = "LLM".toList) →
      S.get? f = some sf →
      sf.tool ≠ "Google".toList → sf.tool ≠ "LLM".toList →
      ∃ rF : List (Str × Str),
        runToolLoop co m ⟨tk, pls, S, some r, rs⟩ cnt =
          .raised .valueError ⟨tk, pls, S, some rF, rs⟩ (cnt + (m - 1)) ∧
        rF.map Prod.fst = (S.take f).map PStep.step_name := by
  intro m
  induction m with
  | zero => intro co tk pls rs S r cnt f sf hle h2; omega
  | succ m ih =>
    intro co tk pls rs S r cnt f sf hle h2 hf hkeys hnd htools hsf hg hl
    have hlt : r.length < S.length := by omega
    have hk : _get_current_task ⟨tk, pls, S, some r, rs⟩ = some (r.length + 1) := by
      simp only [_get_current_task]
      rw [if_neg (by omega : ¬ (r.length = S.length))]
    obtain ⟨s, hs⟩ : ∃ s, S.get? r.length = some s :=
      ⟨S.get ⟨r.length, hlt⟩, List.get?_eq_get hlt⟩
    have hs' : S.get? (r.length + 1 - 1) = some s := by simpa using hs
    rcases Nat.lt_or_ge r.length f with hcase | hcase
    · -- a known step still to run before the failing one
      have htool : s.tool = "Google".toList ∨ s.tool = "LLM".toList :=
        htools r.length s (Nat.le_refl _) hcase hs
      have hnot : s.step_name ∉ r.map Prod.fst := by
        rw [hkeys, List.map_take]
        exact nodup_get_not_mem_take hnd (by rw [List.get?_map, hs]; rfl)
      have hins : ∀ v, dictInsert r s.step_name v = r ++ [(s.step_name, v)] :=
        fun v => dictInsert_new hnot
      have hkeys' : ∀ v : Str, (r ++ [(s.step_name, v)]).map Prod.fst =
          (S.take (r.length + 1)).map PStep.step_name := by
        intro v
        rw [List.map_append, hkeys, take_succ_of_get? hs, List.map_append]
        rfl
      have hlen' : ∀ v : Str, (r ++ [(s.step_name, v)]).length = r.length + 1 := by
        intro v; simp
      obtain ⟨v, hexec⟩ : ∃ v, tool_execution co ⟨tk, pls, S, some r, rs⟩ =
          .ok ⟨tk, pls, S, some (r ++ [(s.step_name, v)]), rs⟩ := by
        rcases htool with ht | ht
        · exact ⟨_, by rw [(tool_execution_step co tk pls rs S r _ s hk hs').1 ht, hins]⟩
        · exact ⟨_, by rw [(tool_execution_step co tk pls rs S r _ s hk hs').2.1 ht, hins]⟩
      simp only [runToolLoop, hexec]
      have hroute : _route ⟨tk, pls, S, some (r ++ [(s.step_name, v)]), rs⟩ = "tool".toList := by
        simp only [_route, _get_current_task, hlen' v]
        rw [if_neg (by omega : ¬ (r.length + 1 = S.length))]
      rw [hroute, if_neg (by decide : ¬ ("tool".toList = "solve".toList))]
      obtain ⟨rF, hF, hFkeys⟩ := ih co tk pls rs S (r ++ [(s.step_name, v)]) (cnt + 1) f sf
        (by rw [hlen' v]; omega) (by rw [hlen' v]; omega) hf
        (by rw [hlen' v]; exact hkeys' v) hnd
        (fun i si hi1 hi2 hgi => htools i si (by rw [hlen' v] at hi1; omega) hi2 hgi)
        hsf hg hl
      refine ⟨rF, ?_, hFkeys⟩
      rw [hF]
      congr 1
      omega
    · -- the failing step is the current one
      have hrf : r.length = f := by omega
      have hsf' : s = sf := by
        rw [hrf] at hs
        rw [hs] at hsf
        exact (Option.some.injEq _ _ ▸ hsf :)
      subst hsf'
      have hexec : tool_execution co ⟨tk, pls, S, some r, rs⟩ = .error .valueError :=
        (tool_execution_step co tk pls rs S r _ s hk hs').2.2 hg hl
      simp only [runToolLoop, hexec]
      have hm0 : m = 0 := by omega
      subst hm0
      refine ⟨r, ?_, by rw [← hrf]; exact hkeys⟩
      rfl

/-- With at least one step, executing the first step from an absent
`results` key behaves as from an empty dict. -/
theorem tool_execution_none_eq (co : Collab) (tk pls rs : Str) (S : List PStep)
    (hS : S ≠ []) :
    tool_execution co ⟨tk, pls, S, none, rs⟩ =
      tool_execution co ⟨tk, pls, S, some [], rs⟩ := by
  rw [tool_execution, tool_execution]
  have h1 : _get_current_task ⟨tk, pls, S, none, rs⟩ = some 1 := rfl
  have h2 : _get_current_task ⟨tk, pls, S, some [], rs⟩ = some 1 := by
    simp only [_get_current_task]
    rw [if_neg (fun h => hS (List.length_eq_zero.mp h.symm))]
    rfl
  rw [h1, h2]
  simp only [resultsList]

/-- When the first step succeeds, a run from the absent-`results` state is
the run from the empty-dict state. -/
theorem runToolLoop_none_ok (co : Collab) (fuel : Nat) (tk pls rs : Str)
    (S : List PStep) (cnt : Nat) (st2 : ReWOO) (hS : S ≠ [])
    (hok : tool_execution co ⟨tk, pls, S, some [], rs⟩ = .ok st2) :
    runToolLoop co (fuel + 1) ⟨tk, pls, S, none, rs⟩ cnt =
      runToolLoop co (fuel + 1) ⟨tk, pls, S, some [], rs⟩ cnt := by
  have he := tool_execution_none_eq co tk pls rs S hS
  simp only [runToolLoop, he, hok]

/-- An unknown capability in the very first step raises from the
absent-`results` state. -/
theorem tool_execution_none_unknown (co : Collab) (tk pls rs : Str)
    (S : List PStep) (sf : PStep) (hs : S.get? 0 = some sf)
    (hg : sf.tool ≠ "Google".toList) (hl : sf.tool ≠ "LLM".toList) :
    tool_execution co ⟨tk, pls, S, none, rs⟩ = .error .valueError := by
  rw [tool_execution]
  have h1 : _get_current_task ⟨tk, pls, S, none, rs⟩ = some 1 := rfl
  rw [h1]
  have hs1 : S.get? (1 - 1) = some sf := hs
  simp only [resultsList, hs1, if_neg hg, if_neg hl]

/-! Section: Claim theorems -/

/-- Constant-behaviour collaborators for concrete runs: the planner returns
the given plan text, the chat model always answers "5", search echoes the
query. -/
def constColl (planText : Str) : Collab :=
  { llm_invoke := fun _ => ⟨"5".toList⟩
    search_invoke := fun q => q
    planner_invoke := fun _ => planText }

/-- C1: FALSE of the code (code bug).  A PlanText with zero matching clauses
parses to zero steps, but the unconditional `plan → tool` edge still enters
the tool-execution node, where `state["steps"][0]` raises an IndexError
after zero step executions; the pipeline never reaches the solver. -/
theorem claim_C1 :
    findPlans "no plan here".toList = [] ∧
    appInvoke (constColl "no plan here".toList) 1 "t".toList =
      .raised .indexError
        ⟨"t".toList, "no plan here".toList, [], none, []⟩ 0 := by
  constructor
  · decide
  · decide

/-- C8: FALSE of the code (code bug).  A step dispatched to the `LLM`
capability stores `str(result)` of the returned message object, the pydantic
rendering `content='5' additional_kwargs={} response_metadata={}`, not the
bare text "5" the spec requires. -/
theorem claim_C8 :
    tool_execution (constColl [])
        ⟨"A + B".toList, [],
          [⟨"add ".toList, "#E1".toList, "LLM".toList, "What is 2+3".toList⟩],
          none, []⟩ =
      .ok ⟨"A + B".toList, [],
          [⟨"add ".toList, "#E1".toList, "LLM".toList, "What is 2+3".toList⟩],
          some [("#E1".toList,
            "content='5' additional_kwargs=\x7b\x7d response_metadata=\x7b\x7d".toList)],
          []⟩ ∧
    pyStrOfMessage ⟨"5".toList⟩ ≠ "5".toList := by
  constructor
  · rfl
  · decide

/-- C9: the solver invokes the text-generation collaborator exactly once
(the call log has a single entry, the formatted solver prompt), and the
final answer is verbatim the `content` of that single reply. -/
theorem claim_C9 (co : Collab) (st : ReWOO) :
    (solve co st).2 = [solver_prompt_formatted (solvePlanString st) st.task] ∧
    (solve co st).1.result =
      (co.llm_invoke (solver_prompt_formatted (solvePlanString st) st.task)).content := by
  exact ⟨rfl, rfl⟩

/-- C6 counterexample: with the store `{#E1: "see #E1"}` (a value that
contains the variable token) and input `#E1`, one occurrence of `#E1`
remains after substitution — "zero occurrences remain" is false. -/
theorem claim_C6_counterexample :
    applySubst [("#E1".toList, "see #E1".toList)] "#E1".toList = "see #E1".toList ∧
    countOccs "#E1".toList "#E1".toList = 1 ∧
    countOccs "#E1".toList (applySubst [("#E1".toList, "see #E1".toList)] "#E1".toList) ≠ 0 := by
  refine ⟨by decide, by decide, by decide⟩

/-- C6 as amended: for a single store entry `(x, v)`, substitution rewrites
the input to `v.join(input.split(x))` — every leftmost non-overlapping
occurrence of `x` (there are `countOccs x input` of them) is replaced by the
stored value `v`; occurrences of `x` may remain only when reintroduced by
`v` itself or by seams of the rewritten text. -/
theorem claim_C6 (x v input : Str) (hx : x ≠ []) :
    applySubst [(x, v)] input = joinWith v (splitOnPat x input) ∧
    (splitOnPat x input).length = countOccs x input + 1 := by
  exact ⟨strReplace_eq_joinWith x v hx input, splitOnPat_length_eq x hx input⟩

/-- C6 witness. -/
theorem claim_C6_witness :
    "#E1".toList ≠ ([] : Str) ∧
    (applySubst [("#E1".toList, "5".toList)] "a #E1 b #E1".toList =
        joinWith "5".toList (splitOnPat "#E1".toList "a #E1 b #E1".toList) ∧
      (splitOnPat "#E1".toList "a #E1 b #E1".toList).length =
        countOccs "#E1".toList "a #E1 b #E1".toList + 1) :=
  ⟨by decide, claim_C6 "#E1".toList "5".toList "a #E1 b #E1".toList (by decide)⟩

/-- C10: substitution is plain substring replacement, and the store is
iterated in insertion order, so with `#E1` stored before `#E10` every
occurrence of `#E10` in the text is corrupted by the `#E1` pass into
`v1 ++ "0"` instead of being replaced by `#E10`'s own value `v10`. -/
theorem claim_C10 (a b v1 v10 : Str)
    (ha : '#' ∉ a) (hb : '#' ∉ b) (hv : '#' ∉ v1) :
    applySubst [("#E1".toList, v1), ("#E10".toList, v10)] (a ++ "#E10".toList ++ b) =
      a ++ v1 ++ '0' :: b ∧
    (v1 ++ ['0'] ≠ v10 →
      applySubst [("#E1".toList, v1), ("#E10".toList, v10)] (a ++ "#E10".toList ++ b) ≠
        a ++ v10 ++ b) := by
  have hpat1 : "#E1".toList = '#' :: "E1".toList := rfl
  have hshape : a ++ "#E10".toList ++ b = a ++ ('#' :: 'E' :: '1' :: '0' :: b) := by
    simp
  have hnotin0b : '#' ∉ ('0' :: b) := by
    intro hm
    rcases List.mem_cons.mp hm with h | h
    · cases h
    · exact hb h
  have step1 : strReplace (a ++ "#E10".toList ++ b) "#E1".toList v1 =
      a ++ (v1 ++ '0' :: b) := by
    rw [hshape, hpat1, strReplace_append_of_head_not_mem _ ha, ← hpat1]
    have hm : ("#E1".toList).isPrefixOf ('#' :: 'E' :: '1' :: '0' :: b) = true := rfl
    rw [strReplace_cons_match _ _ _ _ (by decide) hm]
    have hdrop : (('#' : Char) :: 'E' :: '1' :: '0' :: b).drop ("#E1".toList).length =
        '0' :: b := rfl
    rw [hdrop, hpat1, strReplace_of_head_not_mem hnotin0b]
  have hpat10 : "#E10".toList = '#' :: "E10".toList := rfl
  have hnotin : '#' ∉ a ++ (v1 ++ '0' :: b) := by
    intro hm
    rcases List.mem_append.mp hm with h | h
    · exact ha h
    · rcases List.mem_append.mp h with h | h
      · exact hv h
      · exact hnotin0b h
  have step2 : strReplace (a ++ (v1 ++ '0' :: b)) "#E10".toList v10 =
      a ++ (v1 ++ '0' :: b) := by
    rw [hpat10, strReplace_of_head_not_mem hnotin]
  have hmain : applySubst [("#E1".toList, v1), ("#E10".toList, v10)]
      (a ++ "#E10".toList ++ b) = a ++ v1 ++ '0' :: b := by
    show strReplace (strReplace (a ++ "#E10".toList ++ b) "#E1".toList v1)
        "#E10".toList v10 = a ++ v1 ++ '0' :: b
    rw [step1, step2, List.append_assoc]
  refine ⟨hmain, fun hne he => hne ?_⟩
  rw [hmain] at he
  have h1 : v1 ++ '0' :: b = v10 ++ b := by
    have := he
    rw [List.append_assoc, List.append_assoc] at this
    exact List.append_cancel_left this
  have h2 : (v1 ++ ['0']) ++ b = v10 ++ b := by
    rw [← h1]
    simp
  exact List.append_cancel_right h2

/-- C10 witness. -/
theorem claim_C10_witness :
    ('#' ∉ "x ".toList ∧ '#' ∉ " y".toList ∧ '#' ∉ "five".toList) ∧
    (applySubst [("#E1".toList, "five".toList), ("#E10".toList, "ten".toList)]
        ("x ".toList ++ "#E10".toList ++ " y".toList) =
      "x ".toList ++ "five".toList ++ '0' :: " y".toList ∧
    ("five".toList ++ ['0'] ≠ "ten".toList →
      applySubst [("#E1".toList, "five".toList), ("#E10".toList, "ten".toList)]
          ("x ".toList ++ "#E10".toList ++ " y".toList) ≠
        "x ".toList ++ "ten".toList ++ " y".toList)) :=
  ⟨⟨by decide, by decide, by decide⟩,
    claim_C10 "x ".toList " y".toList "five".toList "ten".toList
      (by decide) (by decide) (by decide)⟩

theorem get?_take_own {α} :
    ∀ {L : List α} {n i : Nat}, i < n → (L.take n).get? i = L.get? i
  | [], n, i, _ => by simp
  | x :: L, n + 1, 0, _ => rfl
  | x :: L, n + 1, i + 1, h => by
    simp only [List.take_succ_cons, List.get?_cons_succ]
    exact get?_take_own (Nat.lt_of_succ_lt_succ h)
  | x :: L, 0, i, h => by omega

/-- C2 counterexample: a parsed step sequence of length N = 0 (a plan with
no matching clauses) does not reach the solver after 0 executions — the
run raises an IndexError inside the tool node instead. -/
theorem claim_C2_counterexample :
    findPlans "Task: nothing to do".toList = [] ∧
    appInvoke (constColl "Task: nothing to do".toList) 1 "sum 1+1".toList =
      .raised .indexError
        ⟨"sum 1+1".toList, "Task: nothing to do".toList, [], none, []⟩ 0 := by
  exact ⟨by decide, by decide⟩

/-- C2 as amended: for every parsed step sequence of length N ≥ 1 with
pairwise-distinct variables whose capabilities are all known, the control
loop reaches the solver after exactly N successful step executions, and on
every iteration the current step index is `len(results) + 1`. -/
theorem claim_C2 (co : Collab) (tk pls rs : Str) (S : List PStep)
    (hS : S ≠ [])
    (hnd : (S.map PStep.step_name).Nodup)
    (htools : S.all (fun s => s.tool == "Google".toList || s.tool == "LLM".toList) = true) :
    (∃ stF, runToolLoop co S.length ⟨tk, pls, S, none, rs⟩ 0 = .finished stF S.length) ∧
    (∀ r : List (Str × Str), r.length < S.length →
      _get_current_task ⟨tk, pls, S, some r, rs⟩ = some (r.length + 1)) := by
  have htools' : ∀ s ∈ S, s.tool = "Google".toList ∨ s.tool = "LLM".toList := by
    intro s hm
    have := List.all_eq_true.mp htools s hm
    simpa using this
  constructor
  · obtain ⟨s0, hs0⟩ : ∃ s0, S.get? 0 = some s0 := by
      cases S with
      | nil => exact absurd rfl hS
      | cons a b => exact ⟨a, rfl⟩
    have hk0 : _get_current_task ⟨tk, pls, S, some [], rs⟩ = some 1 := by
      simp only [_get_current_task]
      rw [if_neg (fun h => hS (List.length_eq_zero.mp h.symm))]
      rfl
    have hs0' : S.get? (1 - 1) = some s0 := hs0
    obtain ⟨st2, hok⟩ : ∃ st2, tool_execution co ⟨tk, pls, S, some [], rs⟩ = .ok st2 := by
      rcases htools' s0 (get?_mem_own hs0) with ht | ht
      · exact ⟨_, (tool_execution_step co tk pls rs S [] 1 s0 hk0 hs0').1 ht⟩
      · exact ⟨_, (tool_execution_step co tk pls rs S [] 1 s0 hk0 hs0').2.1 ht⟩
    obtain ⟨m, hN⟩ : ∃ m, S.length = m + 1 := by
      cases hL : S.length with
      | zero => exact absurd (List.length_eq_zero.mp hL) hS
      | succ m => exact ⟨m, rfl⟩
    rw [hN, runToolLoop_none_ok co m tk pls rs S 0 st2 hS hok]
    obtain ⟨stF, hF⟩ := runToolLoop_success (m + 1) co tk pls rs S [] 0
      (by omega) (by simpa using hN.symm) rfl hnd htools'
    refine ⟨stF, ?_⟩
    rw [hF]
    congr 1
    omega
  · intro r hr
    simp only [_get_current_task]
    rw [if_neg (by omega)]

/-- C2 witness. -/
theorem claim_C2_witness :
    (([⟨"a ".toList, "#E1".toList, "LLM".toList, "x".toList⟩,
       ⟨"b ".toList, "#E2".toList, "LLM".toList, "y".toList⟩] : List PStep) ≠ [] ∧
     (([⟨"a ".toList, "#E1".toList, "LLM".toList, "x".toList⟩,
        ⟨"b ".toList, "#E2".toList, "LLM".toList, "y".toList⟩] : List PStep).map
          PStep.step_name).Nodup ∧
     ([⟨"a ".toList, "#E1".toList, "LLM".toList, "x".toList⟩,
       ⟨"b ".toList, "#E2".toList, "LLM".toList, "y".toList⟩] : List PStep).all
        (fun s => s.tool == "Google".toList || s.tool == "LLM".toList) = true) ∧
    ((∃ stF, runToolLoop (constColl []) 2
        ⟨"t".toList, [], [⟨"a ".toList, "#E1".toList, "LLM".toList, "x".toList⟩,
          ⟨"b ".toList, "#E2".toList, "LLM".toList, "y".toList⟩], none, []⟩ 0 =
        .finished stF 2) ∧
     (∀ r : List (Str × Str), r.length < 2 →
        _get_current_task ⟨"t".toList, [],
          [⟨"a ".toList, "#E1".toList, "LLM".toList, "x".toList⟩,
           ⟨"b ".toList, "#E2".toList, "LLM".toList, "y".toList⟩], some r, []⟩ =
          some (r.length + 1))) :=
  ⟨⟨by decide, by decide, by decide⟩,
    claim_C2 (constColl []) "t".toList [] []
      [⟨"a ".toList, "#E1".toList, "LLM".toList, "x".toList⟩,
       ⟨"b ".toList, "#E2".toList, "LLM".toList, "y".toList⟩]
      (by decide) (by decide) (by decide)⟩

/-- C3 counterexample: when a step's variable already keys the store (the
parser does not prevent this), the execution overwrites the old entry in
place; the store size does not grow. -/
theorem claim_C3_counterexample :
    tool_execution (constColl [])
        ⟨"t".toList, [],
          [⟨"a ".toList, "#E1".toList, "LLM".toList, "x".toList⟩,
           ⟨"b ".toList, "#E1".toList, "LLM".toList, "y".toList⟩],
          some [("#E1".toList, "old".toList)], []⟩ =
      .ok ⟨"t".toList, [],
          [⟨"a ".toList, "#E1".toList, "LLM".toList, "x".toList⟩,
           ⟨"b ".toList, "#E1".toList, "LLM".toList, "y".toList⟩],
          some [("#E1".toList,
            "content='5' additional_kwargs=\x7b\x7d response_metadata=\x7b\x7d".toList)],
          []⟩ ∧
    ([("#E1".toList,
        "content='5' additional_kwargs=\x7b\x7d response_metadata=\x7b\x7d".toList)] :
      List (Str × Str)).length =
      ([("#E1".toList, "old".toList)] : List (Str × Str)).length := by
  exact ⟨rfl, rfl⟩

/-- C3 as amended: provided the current step's variable is not yet a key of
the ResultStore (guaranteed when the plan's variables are pairwise
distinct), a successful execution appends exactly one entry keyed by that
variable; earlier entries are untouched and the store grows by exactly 1. -/
theorem claim_C3 (co : Collab) (st : ReWOO) (k : Nat) (s : PStep)
    (hk : _get_current_task st = some k)
    (hs : st.steps.get? (k - 1) = some s)
    (htool : s.tool = "Google".toList ∨ s.tool = "LLM".toList)
    (hnew : s.step_name ∉ (resultsList st).map Prod.fst) :
    ∃ v, tool_execution co st =
        .ok { st with results := some (resultsList st ++ [(s.step_name, v)]) } ∧
      (resultsList st ++ [(s.step_name, v)]).length = (resultsList st).length + 1 := by
  obtain ⟨tk, pls, S, res, rs⟩ := st
  cases res with
  | some r =>
    rcases htool with ht | ht
    · refine ⟨co.search_invoke (applySubst r s.tool_input), ?_, by simp⟩
      rw [(tool_execution_step co tk pls rs S r k s hk hs).1 ht]
      simp only [resultsList] at hnew ⊢
      rw [dictInsert_new hnew]
    · refine ⟨pyStrOfMessage (co.llm_invoke (applySubst r s.tool_input)), ?_, by simp⟩
      rw [(tool_execution_step co tk pls rs S r k s hk hs).2.1 ht]
      simp only [resultsList] at hnew ⊢
      rw [dictInsert_new hnew]
  | none =>
    have hk1 : k = 1 := by
      have h' : (some 1 : Option Nat) = some k := hk
      injection h' with h''
      exact h''.symm
    subst hk1
    have hS : S ≠ [] := by
      intro h
      subst h
      simp at hs
    have hk0 : _get_current_task ⟨tk, pls, S, some [], rs⟩ = some 1 := by
      simp only [_get_current_task]
      rw [if_neg (fun h => hS (List.length_eq_zero.mp h.symm))]
      rfl
    have heq := tool_execution_none_eq co tk pls rs S hS
    rcases htool with ht | ht
    · refine ⟨co.search_invoke (applySubst [] s.tool_input), ?_, by simp⟩
      rw [heq, (tool_execution_step co tk pls rs S [] 1 s hk0 hs).1 ht]
      simp only [resultsList] at hnew ⊢
      rw [dictInsert_new hnew]
    · refine ⟨pyStrOfMessage (co.llm_invoke (applySubst [] s.tool_input)), ?_, by simp⟩
      rw [heq, (tool_execution_step co tk pls rs S [] 1 s hk0 hs).2.1 ht]
      simp only [resultsList] at hnew ⊢
      rw [dictInsert_new hnew]

/-- C3 witness. -/
theorem claim_C3_witness :
    (_get_current_task ⟨"t".toList, [],
        [⟨"a ".toList, "#E1".toList, "LLM".toList, "x".toList⟩], none, []⟩ = some 1 ∧
     ([⟨"a ".toList, "#E1".toList, "LLM".toList, "x".toList⟩] : List PStep).get? (1 - 1) =
        some ⟨"a ".toList, "#E1".toList, "LLM".toList, "x".toList⟩ ∧
     (("LLM".toList : Str) = "Google".toList ∨ ("LLM".toList : Str) = "LLM".toList) ∧
     ("#E1".toList : Str) ∉ (resultsList ⟨"t".toList, [],
        [⟨"a ".toList, "#E1".toList, "LLM".toList, "x".toList⟩], none, []⟩).map Prod.fst) ∧
    (∃ v, tool_execution (constColl []) ⟨"t".toList, [],
        [⟨"a ".toList, "#E1".toList, "LLM".toList, "x".toList⟩], none, []⟩ =
        .ok { (⟨"t".toList, [],
          [⟨"a ".toList, "#E1".toList, "LLM".toList, "x".toList⟩], none, []⟩ : ReWOO) with
            results := some (resultsList ⟨"t".toList, [],
              [⟨"a ".toList, "#E1".toList, "LLM".toList, "x".toList⟩], none, []⟩ ++
              [("#E1".toList, v)]) } ∧
      (resultsList (⟨"t".toList, [],
          [⟨"a ".toList, "#E1".toList, "LLM".toList, "x".toList⟩], none, []⟩ : ReWOO) ++
        [("#E1".toList, v)]).length =
        (resultsList (⟨"t".toList, [],
          [⟨"a ".toList, "#E1".toList, "LLM".toList, "x".toList⟩], none, []⟩ : ReWOO)).length + 1) :=
  ⟨⟨rfl, rfl, Or.inr rfl, by decide⟩,
    claim_C3 (constColl []) ⟨"t".toList, [],
      [⟨"a ".toList, "#E1".toList, "LLM".toList, "x".toList⟩], none, []⟩ 1
      ⟨"a ".toList, "#E1".toList, "LLM".toList, "x".toList⟩
      rfl rfl (Or.inr rfl) (by decide)⟩

/-- C4 counterexample: a PlanText whose two clauses reuse `#E1` parses to
two steps with the same variable — the parser neither rejects nor
deduplicates, so the output does contain two steps with one identifier. -/
theorem claim_C4_counterexample :
    findPlans "Plan: a #E1 = LLM[x]\nPlan: b #E1 = LLM[y]".toList =
      [⟨"a ".toList, "#E1".toList, "LLM".toList, "x".toList⟩,
       ⟨"b ".toList, "#E1".toList, "LLM".toList, "y".toList⟩] ∧
    ¬ ((findPlans "Plan: a #E1 = LLM[x]\nPlan: b #E1 = LLM[y]".toList).map
        PStep.step_name).Nodup := by
  exact ⟨by decide, by decide⟩

/-- C4 as amended: variable tokens are captured verbatim with no uniqueness
check: two well-formed clauses that reuse one `#E` number yield two steps
carrying the same variable.  Uniqueness holds only when the plan text
itself uses distinct tokens. -/
theorem claim_C4 (cl1 cl2 : ClauseSrc)
    (h1 : wfClause cl1 = true) (h2 : wfClause cl2 = true)
    (hnum : cl1.num = cl2.num) :
    findPlans (catClauses [cl1, cl2]) = [stepOf cl1, stepOf cl2] ∧
    (stepOf cl1).step_name = (stepOf cl2).step_name := by
  constructor
  · have h := findPlans_cat [cl1, cl2] ?_
    · exact h
    · intro cl hm
      rcases List.mem_cons.mp hm with rfl | hm
      · exact h1
      · rcases List.mem_cons.mp hm with rfl | hm
        · exact h2
        · simp at hm
  · simp [stepOf, hnum]

/-- C4 witness. -/
theorem claim_C4_witness :
    (wfClause ⟨['a'], ['1'], "LLM".toList, ['x']⟩ = true ∧
     wfClause ⟨['b'], ['1'], "LLM".toList, ['y']⟩ = true ∧
     (⟨['a'], ['1'], "LLM".toList, ['x']⟩ : ClauseSrc).num =
       (⟨['b'], ['1'], "LLM".toList, ['y']⟩ : ClauseSrc).num) ∧
    (findPlans (catClauses [⟨['a'], ['1'], "LLM".toList, ['x']⟩,
        ⟨['b'], ['1'], "LLM".toList, ['y']⟩]) =
      [stepOf ⟨['a'], ['1'], "LLM".toList, ['x']⟩,
       stepOf ⟨['b'], ['1'], "LLM".toList, ['y']⟩] ∧
     (stepOf ⟨['a'], ['1'], "LLM".toList, ['x']⟩).step_name =
       (stepOf ⟨['b'], ['1'], "LLM".toList, ['y']⟩).step_name) :=
  ⟨⟨by decide, by decide, by decide⟩,
    claim_C4 ⟨['a'], ['1'], "LLM".toList, ['x']⟩ ⟨['b'], ['1'], "LLM".toList, ['y']⟩
      (by decide) (by decide) (by decide)⟩

/-- C5 counterexample, refuting the unrestricted round trip: in the single
clause `Plan: d1 #E1 = C[x #E9 = Foo[y]` the bracketed input `x #E9 = Foo[y`
contains no `]`, so under the grammar it is one clause with description
`d1`, variable `#E1`, capability `C` and that input.  The greedy `(.+)`
instead hands the tail to the assignment-shaped text inside the input: the
parser returns variable `#E9`, capability `Foo`, input `y` and description
`d1 #E1 = C[x ` — none of the source fields survive, so the round trip
fails. -/
theorem claim_C5_counterexample :
    findPlans "Plan: d1 #E1 = C[x #E9 = Foo[y]".toList =
      [⟨"d1 #E1 = C[x ".toList, "#E9".toList, "Foo".toList, "y".toList⟩] ∧
    findPlans "Plan: d1 #E1 = C[x #E9 = Foo[y]".toList ≠
      [⟨"d1 ".toList, "#E1".toList, "C".toList, "x #E9 = Foo[y".toList⟩] := by
  exact ⟨by decide, by decide⟩

/-- C5 as amended: the parser round trip.  A PlanText made of N well-formed
clauses `Plan: <d i> #E<i+1> = <c i>[<inp i>]` joined by newlines parses to
exactly N steps, in order, with variables `#E1..#EN`, capability and input
captured verbatim, and the captured description equal to the source
description modulo trimming (the greedy `(.+)` keeps the blank before
`#E`; `trimStr` removes it).  Well-formedness (`wfClause`) permits `#E`
evidence references inside descriptions and inputs (e.g. `LLM[Double #E1]`,
see the witness); it excludes only clause text that itself embeds a second
parsable `#E<n> = <cap>[<input>]` assignment — the shape the counterexample
shows to derail the greedy match. -/
theorem claim_C5 (N : Nat) (d c inp : Nat → Str)
    (hwf : ∀ i, i < N → wfClause ⟨d i, natStr (i + 1), c i, inp i⟩ = true) :
    findPlans (catClauses ((List.range N).map
        (fun i => ⟨d i, natStr (i + 1), c i, inp i⟩))) =
      (List.range N).map
        (fun i => ⟨d i ++ [' '], '#' :: 'E' :: natStr (i + 1), c i, inp i⟩) ∧
    (findPlans (catClauses ((List.range N).map
        (fun i => ⟨d i, natStr (i + 1), c i, inp i⟩)))).length = N ∧
    (∀ i, i < N → trimStr ((d i) ++ [' ']) = d i) := by
  have hwf' : ∀ cl ∈ (List.range N).map
      (fun i => (⟨d i, natStr (i + 1), c i, inp i⟩ : ClauseSrc)), wfClause cl = true := by
    intro cl hm
    obtain ⟨i, hi, rfl⟩ := List.mem_map.mp hm
    exact hwf i (List.mem_range.mp hi)
  have hmain := findPlans_cat _ hwf'
  refine ⟨?_, ?_, ?_⟩
  · rw [hmain, List.map_map]
    rfl
  · rw [hmain]
    simp
  · intro i hi
    have h := hwf i hi
    simp only [wfClause, Bool.and_eq_true] at h
    exact trimStr_desc (d i) h.1.1.1.1.1.1.1.1.2 h.1.1.1.1.1.1.1.2

/-- C5 witness: the two-step plan `Plan: add #E1 = LLM[What is 2+3]` then
`Plan: double #E2 = LLM[Double #E1]` — the second input references the first
evidence variable — is well-formed and round-trips. -/
theorem claim_C5_witness :
    (∀ i, i < 2 → wfClause ⟨(fun j => if j = 0 then "add".toList else "double".toList) i,
        natStr (i + 1), (fun _ => "LLM".toList) i,
        (fun j => if j = 0 then "What is 2+3".toList else "Double #E1".toList) i⟩ = true) ∧
    (findPlans (catClauses ((List.range 2).map
        (fun i => ⟨(fun j => if j = 0 then "add".toList else "double".toList) i,
          natStr (i + 1), (fun _ => "LLM".toList) i,
          (fun j => if j = 0 then "What is 2+3".toList else "Double #E1".toList) i⟩))) =
      (List.range 2).map
        (fun i => ⟨(fun j => if j = 0 then "add".toList else "double".toList) i ++ [' '],
          '#' :: 'E' :: natStr (i + 1), (fun _ => "LLM".toList) i,
          (fun j => if j = 0 then "What is 2+3".toList else "Double #E1".toList) i⟩) ∧
    (findPlans (catClauses ((List.range 2).map
        (fun i => ⟨(fun j => if j = 0 then "add".toList else "double".toList) i,
          natStr (i + 1), (fun _ => "LLM".toList) i,
          (fun j => if j = 0 then "What is 2+3".toList else "Double #E1".toList) i⟩)))).length = 2 ∧
    (∀ i, i < 2 → trimStr (((fun j => if j = 0 then "add".toList else "double".toList) i) ++ [' ']) =
      (fun j => if j = 0 then "add".toList else "double".toList) i)) :=
  ⟨by decide,
    claim_C5 2 (fun j => if j = 0 then "add".toList else "double".toList)
      (fun _ => "LLM".toList)
      (fun j => if j = 0 then "What is 2+3".toList else "Double #E1".toList) (by decide)⟩

/-- C7: an unknown capability name in step f (0-based) raises the
`ValueError` and aborts the run; at the moment of failure the ResultStore
holds exactly one entry per step completed before the failing step, keyed
by those steps' variables — the failing step stores nothing. -/
theorem claim_C7 (co : Collab) (tk pls rs : Str) (S : List PStep)
    (f : Nat) (sf : PStep)
    (hf : f < S.length)
    (hnd : (S.map PStep.step_name).Nodup)
    (htools : (S.take f).all
      (fun s => s.tool == "Google".toList || s.tool == "LLM".toList) = true)
    (hsf : S.get? f = some sf)
    (hg : sf.tool ≠ "Google".toList) (hl : sf.tool ≠ "LLM".toList) :
    ∃ stF, runToolLoop co (f + 1) ⟨tk, pls, S, none, rs⟩ 0 =
        .raised .valueError stF f ∧
      (resultsList stF).map Prod.fst = (S.take f).map PStep.step_name ∧
      (resultsList stF).length = f := by
  have htools' : ∀ i s, 0 ≤ i → i < f → S.get? i = some s →
      s.tool = "Google".toList ∨ s.tool = "LLM".toList := by
    intro i s _ hif hgi
    have hmem : s ∈ S.take f := by
      have := get?_take_own (L := S) (n := f) hif
      exact get?_mem_own (by rw [this, hgi])
    have := List.all_eq_true.mp htools s hmem
    simpa using this
  cases f with
  | zero =>
    have herr := tool_execution_none_unknown co tk pls rs S sf hsf hg hl
    simp only [runToolLoop, herr]
    exact ⟨⟨tk, pls, S, none, rs⟩, rfl, by simp [resultsList], by simp [resultsList]⟩
  | succ f' =>
    obtain ⟨s0, hs0⟩ : ∃ s0, S.get? 0 = some s0 := by
      cases S with
      | nil => simp at hf
      | cons a b => exact ⟨a, rfl⟩
    have hS : S ≠ [] := by
      intro h
      subst h
      simp at hf
    have hk0 : _get_current_task ⟨tk, pls, S, some [], rs⟩ = some 1 := by
      simp only [_get_current_task]
      rw [if_neg (fun h => hS (List.length_eq_zero.mp h.symm))]
      rfl
    have hs0' : S.get? (1 - 1) = some s0 := hs0
    obtain ⟨st2, hok⟩ : ∃ st2, tool_execution co ⟨tk, pls, S, some [], rs⟩ = .ok st2 := by
      rcases htools' 0 s0 (Nat.le_refl 0) (Nat.succ_pos f') hs0 with ht | ht
      · exact ⟨_, (tool_execution_step co tk pls rs S [] 1 s0 hk0 hs0').1 ht⟩
      · exact ⟨_, (tool_execution_step co tk pls rs S [] 1 s0 hk0 hs0').2.1 ht⟩
    rw [runToolLoop_none_ok co (f' + 1) tk pls rs S 0 st2 hS hok]
    obtain ⟨rF, hF, hFkeys⟩ := runToolLoop_failure (f' + 2) co tk pls rs S [] 0 (f' + 1) sf
      (by simp only [List.length_nil]; omega) (by simp only [List.length_nil]; omega) hf rfl hnd
      (fun i si hi1 hi2 hgi => htools' i si (by omega) hi2 hgi)
      hsf hg hl
    refine ⟨⟨tk, pls, S, some rF, rs⟩, ?_, ?_, ?_⟩
    · rw [hF]
      congr 1
      omega
    · exact hFkeys
    · have hlen := congrArg List.length hFkeys
      simp only [List.length_map] at hlen
      rw [show (resultsList ⟨tk, pls, S, some rF, rs⟩) = rF from rfl, hlen,
        List.length_take]
      omega

/-- C7 witness. -/
theorem claim_C7_witness :
    ((1 : Nat) < ([⟨"a ".toList, "#E1".toList, "LLM".toList, "x".toList⟩,
        ⟨"b ".toList, "#E2".toList, "Wolfram".toList, "y".toList⟩] : List PStep).length ∧
     (([⟨"a ".toList, "#E1".toList, "LLM".toList, "x".toList⟩,
        ⟨"b ".toList, "#E2".toList, "Wolfram".toList, "y".toList⟩] : List PStep).map
          PStep.step_name).Nodup ∧
     (([⟨"a ".toList, "#E1".toList, "LLM".toList, "x".toList⟩,
        ⟨"b ".toList, "#E2".toList, "Wolfram".toList, "y".toList⟩] : List PStep).take 1).all
        (fun s => s.tool == "Google".toList || s.tool == "LLM".toList) = true ∧
     ([⟨"a ".toList, "#E1".toList, "LLM".toList, "x".toList⟩,
       ⟨"b ".toList, "#E2".toList, "Wolfram".toList, "y".toList⟩] : List PStep).get? 1 =
        some ⟨"b ".toList, "#E2".toList, "Wolfram".toList, "y".toList⟩ ∧
     ("Wolfram".toList : Str) ≠ "Google".toList ∧ ("Wolfram".toList : Str) ≠ "LLM".toList) ∧
    (∃ stF, runToolLoop (constColl []) 2
        ⟨"t".toList, [], [⟨"a ".toList, "#E1".toList, "LLM".toList, "x".toList⟩,
          ⟨"b ".toList, "#E2".toList, "Wolfram".toList, "y".toList⟩], none, []⟩ 0 =
        .raised .valueError stF 1 ∧
      (resultsList stF).map Prod.fst =
        (([⟨"a ".toList, "#E1".toList, "LLM".toList, "x".toList⟩,
           ⟨"b ".toList, "#E2".toList, "Wolfram".toList, "y".toList⟩] : List PStep).take 1).map
          PStep.step_name ∧
      (resultsList stF).length = 1) :=
  ⟨⟨by decide, by decide, by decide, by decide, by decide, by decide⟩,
    claim_C7 (constColl []) "t".toList [] []
      [⟨"a ".toList, "#E1".toList, "LLM".toList, "x".toList⟩,
       ⟨"b ".toList, "#E2".toList, "Wolfram".toList, "y".toList⟩] 1
      ⟨"b ".toList, "#E2".toList, "Wolfram".toList, "y".toList⟩
      (by decide) (by decide) (by decide) (by decide) (by decide) (by decide)⟩
